import Mathlib

/-!
Verification of the WebUnpack backend crawler core (scraper/base_spider.py,
scraper/framer_spider.py, services/general_scraper.py) against its
specification.

The Python code is shallowly embedded: strings are Lean `String`s manipulated
through executable `List Char` cores, the crawl traversals become fuel-indexed
state-passing functions over an abstract web (a function from URL to an
optional fetch result), and network / filesystem effects are recorded in
explicit event traces.
-/

/-! ## String toolkit (Python string-operation semantics on `List Char`) -/

/-- Boolean list-of-chars prefix test (models Python `s.startswith(p)` on the
character level). -/
def isPre : List Char → List Char → Bool
  | [], _ => true
  | _ :: _, [] => false
  | a :: as, b :: bs => a == b && isPre as bs

/-- Boolean substring test (models Python `p in s`). -/
def subList (pat : List Char) : List Char → Bool
  | [] => isPre pat []
  | x :: xs => isPre pat (x :: xs) || subList pat xs

/-- Characters of `l` strictly before the first occurrence of `c`
(models Python `s.split(c)[0]`). -/
def takeBefore (c : Char) : List Char → List Char
  | [] => []
  | x :: xs => if x = c then [] else x :: takeBefore c xs

/-- Drop everything up to and including the first occurrence of the substring
`pat`; yields `[]` when `pat` does not occur. -/
def dropThrough (pat : List Char) : List Char → List Char
  | [] => []
  | x :: xs => if isPre pat (x :: xs) then (x :: xs).drop pat.length else dropThrough pat xs

/-- Split on a separator character, keeping empty fields
(models Python `s.split(c)`, which never returns an empty list). -/
def splitCh (c : Char) : List Char → List (List Char)
  | [] => [[]]
  | x :: xs =>
    if x = c then [] :: splitCh c xs
    else
      match splitCh c xs with
      | [] => [[x]]
      | p :: ps => (x :: p) :: ps

/-- Join with a separator character (models Python `c.join(parts)`). -/
def joinCh (c : Char) : List (List Char) → List Char
  | [] => []
  | [p] => p
  | p :: ps => p ++ c :: joinCh c ps

/-- Strip leading occurrences of `c` (Python `s.lstrip(c)`). -/
def lstripCh (c : Char) (l : List Char) : List Char := l.dropWhile (· = c)

/-- Strip trailing occurrences of `c` (Python `s.rstrip(c)`). -/
def rstripCh (c : Char) (l : List Char) : List Char :=
  (l.reverse.dropWhile (· = c)).reverse

/-- Strip `c` from both ends (Python `s.strip(c)`). -/
def stripCh (c : Char) (l : List Char) : List Char := rstripCh c (lstripCh c l)

/-- Boolean suffix test (models Python `s.endswith(p)`). -/
def endsWithCh (suf l : List Char) : Bool := isPre suf.reverse l.reverse

/-- Replace every (left-to-right, non-overlapping) occurrence of `pat` by
`rep` (models Python `s.replace(pat, rep)` for a non-empty `pat`). -/
def replaceAllCore (pat rep : List Char) : List Char → List Char
  | [] => []
  | x :: xs =>
    if pat ≠ [] ∧ isPre pat (x :: xs) = true then
      rep ++ replaceAllCore pat rep (xs.drop (pat.length - 1))
    else
      x :: replaceAllCore pat rep xs
termination_by l => l.length
decreasing_by
  · simp only [List.length_drop, List.length_cons]
    omega
  · simp only [List.length_cons]
    omega

/-- ASCII lower-casing of a character list (models Python `s.lower()` for the
ASCII inputs this program compares). -/
def lowerChars (l : List Char) : List Char := l.map Char.toLower

/-! ## Model of `urllib.parse.urlparse` (path and netloc components)

Only the URL shapes this crawler handles are modelled: the fragment (from the
first `#`) and the query (from the first `?`) are cut off; a URL with a scheme
(`…://host/path`) or a protocol-relative URL (`//host/path`) has its netloc
extend up to the next `/`; anything else is treated as a bare path with empty
netloc. -/

/-- Cut a URL at the first `#` (fragment) and first `?` (query). -/
def cutQF (l : List Char) : List Char := takeBefore '?' (takeBefore '#' l)

/-- Path component of a parsed URL (models `urlparse(url).path`). -/
def urlPathCore (l : List Char) : List Char :=
  if subList "://".data (cutQF l) then (dropThrough "://".data (cutQF l)).dropWhile (· ≠ '/')
  else if isPre "//".data (cutQF l) then (((cutQF l).drop 2).dropWhile (· ≠ '/'))
  else cutQF l

/-- Netloc (host) component of a parsed URL (models `urlparse(url).netloc`). -/
def urlNetlocCore (l : List Char) : List Char :=
  if subList "://".data (cutQF l) then (dropThrough "://".data (cutQF l)).takeWhile (· ≠ '/')
  else if isPre "//".data (cutQF l) then (((cutQF l).drop 2).takeWhile (· ≠ '/'))
  else []

/-- String-level wrapper for the URL path component. -/
def urlparse_path (url : String) : String := ⟨urlPathCore url.data⟩

/-- String-level wrapper for the URL netloc component. -/
def urlparse_netloc (url : String) : String := ⟨urlNetlocCore url.data⟩

/-! ## Path Mapper: `BaseSiteSpider.get_clean_path` (base_spider.py 171-197) -/

/-- The non-empty path segments of a stripped URL path
(`[seg for seg in path.split('/') if seg]` on `parsed.path.strip('/')`). -/
def cleanSegs (l : List Char) : List (List Char) :=
  (splitCh '/' (stripCh '/' (urlPathCore l))).filter (fun s => s ≠ [])

/-- The `if '.' in segments[-1] … elif …` normalisation of the final segment
in `get_clean_path` (base_spider.py 184-187). -/
def codeFixSeg (lastSeg : List Char) : List Char :=
  if ('.' ∈ lastSeg) ∧ endsWithCh ".html".data lastSeg = false then
    takeBefore '.' lastSeg ++ ".html".data
  else if endsWithCh ".html".data lastSeg = false then
    lastSeg ++ ".html".data
  else lastSeg

/-- Embedding of `BaseSiteSpider.get_clean_path`: parse the URL, strip `/`
from both ends of the path, return `index.html` for an empty path, otherwise
split into non-empty segments and force the last segment to end in `.html`
(`segments[-1].split('.')[0] + '.html'` when it carries another extension),
re-joining with the folder part. The `except` fallback of the source cannot
trigger in this model (all operations are total). -/
def get_clean_path (url : String) : String :=
  if stripCh '/' (urlPathCore url.data) = [] then "index.html"
  else if cleanSegs url.data = [] then "index.html"
  else if (cleanSegs url.data).length = 1 then
    ⟨codeFixSeg ((cleanSegs url.data).getLastD [])⟩
  else
    ⟨joinCh '/' (cleanSegs url.data).dropLast
      ++ '/' :: codeFixSeg ((cleanSegs url.data).getLastD [])⟩

/-- The final-segment normalisation exactly as the spec words it: force the
final segment to end in `.html`, replacing any other extension. Used to state
the refinement conjunct of C1 against `get_clean_path`. -/
def forceHtmlSeg (seg : List Char) : List Char :=
  if endsWithCh ".html".data seg = true then seg
  else if '.' ∈ seg then takeBefore '.' seg ++ ".html".data
  else seg ++ ".html".data

/-! ## Toolkit lemmas -/

theorem takeBefore_not_mem (c : Char) (l : List Char) : c ∉ takeBefore c l := by
  induction l with
  | nil => simp [takeBefore]
  | cons x xs ih =>
    by_cases hx : x = c
    · simp [takeBefore, hx]
    · simp only [takeBefore, if_neg hx, List.mem_cons]
      rintro (h | h)
      · exact hx h.symm
      · exact ih h

theorem mem_of_mem_takeBefore {a c : Char} {l : List Char}
    (h : a ∈ takeBefore c l) : a ∈ l := by
  induction l with
  | nil => simp [takeBefore] at h
  | cons x xs ih =>
    by_cases hx : x = c
    · simp [takeBefore, hx] at h
    · simp only [takeBefore, if_neg hx, List.mem_cons] at h
      rcases h with h | h
      · exact List.mem_cons.mpr (Or.inl h)
      · exact List.mem_cons.mpr (Or.inr (ih h))

theorem takeBefore_eq_self {c : Char} {l : List Char} (h : c ∉ l) :
    takeBefore c l = l := by
  induction l with
  | nil => rfl
  | cons x xs ih =>
    simp only [List.mem_cons, not_or] at h
    simp [takeBefore, Ne.symm h.1, ih h.2]

theorem cutQF_idem (l : List Char) : cutQF (cutQF l) = cutQF l := by
  unfold cutQF
  rw [takeBefore_eq_self
        (fun hmem => takeBefore_not_mem '#' l (mem_of_mem_takeBefore hmem)),
      takeBefore_eq_self (takeBefore_not_mem '?' _)]

theorem urlPathCore_cutQF (l : List Char) :
    urlPathCore (cutQF l) = urlPathCore l := by
  simp only [urlPathCore, cutQF_idem]

theorem isPre_append {p l : List Char} (t : List Char) (h : isPre p l = true) :
    isPre p (l ++ t) = true := by
  induction p generalizing l with
  | nil => simp [isPre]
  | cons a as ih =>
    cases l with
    | nil => simp [isPre] at h
    | cons b bs =>
      simp only [List.cons_append, isPre, Bool.and_eq_true, beq_iff_eq] at h ⊢
      exact ⟨h.1, ih h.2⟩

theorem isPre_self_append (p t : List Char) : isPre p (p ++ t) = true := by
  induction p with
  | nil => simp [isPre]
  | cons a as ih => simp [isPre, ih]

theorem endsWithCh_append {suf b : List Char} (a : List Char)
    (h : endsWithCh suf b = true) : endsWithCh suf (a ++ b) = true := by
  unfold endsWithCh at h ⊢
  rw [List.reverse_append]
  exact isPre_append _ h

theorem endsWithCh_concat_self (a suf : List Char) :
    endsWithCh suf (a ++ suf) = true := by
  unfold endsWithCh
  rw [List.reverse_append]
  exact isPre_self_append _ _

theorem joinCh_concat (c : Char) {X : List (List Char)} (y : List Char)
    (h : X ≠ []) : joinCh c (X ++ [y]) = joinCh c X ++ c :: y := by
  induction X with
  | nil => simp at h
  | cons p ps ih =>
    cases ps with
    | nil => simp [joinCh]
    | cons q qs =>
      have hih := ih (List.cons_ne_nil q qs)
      calc joinCh c ((p :: q :: qs) ++ [y])
          = p ++ c :: joinCh c ((q :: qs) ++ [y]) := rfl
        _ = p ++ c :: (joinCh c (q :: qs) ++ c :: y) := by rw [hih]
        _ = (p ++ c :: joinCh c (q :: qs)) ++ c :: y := by
              simp [List.append_assoc]

theorem mk_data (l : List Char) : (⟨l⟩ : String).data = l := rfl

theorem cleanSegs_cutQF (l : List Char) : cleanSegs (cutQF l) = cleanSegs l := by
  unfold cleanSegs
  rw [urlPathCore_cutQF]

theorem codeFixSeg_endsWith (l : List Char) :
    endsWithCh ".html".data (codeFixSeg l) = true := by
  unfold codeFixSeg
  split_ifs with hA hB
  · exact endsWithCh_concat_self _ _
  · exact endsWithCh_concat_self _ _
  · exact Bool.not_eq_false _ |>.mp hB

theorem codeFixSeg_eq_force (l : List Char) : codeFixSeg l = forceHtmlSeg l := by
  unfold codeFixSeg forceHtmlSeg
  by_cases hE : endsWithCh ".html".data l = true
  · simp [hE]
  · have hE2 : endsWithCh ".html".data l = false := by
      cases h : endsWithCh ".html".data l
      · rfl
      · exact absurd h hE
    by_cases hD : '.' ∈ l <;> simp [hE, hE2, hD]

/-- C1: `get_clean_path` is a pure, deterministic function of the URL that
(i) ignores the query and fragment, (ii) returns `index.html` when the URL's
path is empty or `/`, (iii) always yields a path ending in `.html`, (iv) on a
non-empty path equals the folder segments joined with the final segment forced
to end in `.html` (replacing any other extension), and (v) maps
`https://example.com/blog/post-1?utm=x#top` to `blog/post-1.html`. -/
theorem C1_clean_path_spec :
    (∀ url : String, get_clean_path url = get_clean_path ⟨cutQF url.data⟩)
    ∧ (∀ url : String, urlparse_path url = "" ∨ urlparse_path url = "/" →
        get_clean_path url = "index.html")
    ∧ (∀ url : String, endsWithCh ".html".data (get_clean_path url).data = true)
    ∧ (∀ url : String, ∀ segs : List (List Char),
        segs = cleanSegs url.data → segs ≠ [] →
        (get_clean_path url).data
          = joinCh '/' (segs.dropLast ++ [forceHtmlSeg (segs.getLastD [])]))
    ∧ get_clean_path "https://example.com/blog/post-1?utm=x#top"
        = "blog/post-1.html" := by
  refine ⟨?_, ?_, ?_, ?_, by decide⟩
  · intro url
    simp only [get_clean_path, mk_data, urlPathCore_cutQF, cleanSegs_cutQF]
  · intro url h
    have h2 : urlPathCore url.data = [] ∨ urlPathCore url.data = ['/'] := by
      rcases h with h | h
      · exact Or.inl (congrArg String.data h)
      · exact Or.inr (congrArg String.data h)
    simp only [get_clean_path, cleanSegs]
    rcases h2 with h2 | h2 <;> rw [h2] <;> decide
  · intro url
    simp only [get_clean_path]
    by_cases h1 : stripCh '/' (urlPathCore url.data) = []
    · rw [if_pos h1]; decide
    · rw [if_neg h1]
      by_cases h2 : cleanSegs url.data = []
      · rw [if_pos h2]; decide
      · rw [if_neg h2]
        by_cases h3 : (cleanSegs url.data).length = 1
        · rw [if_pos h3]
          exact codeFixSeg_endsWith _
        · rw [if_neg h3]
          show endsWithCh ".html".data
            (joinCh '/' (cleanSegs url.data).dropLast
              ++ '/' :: codeFixSeg ((cleanSegs url.data).getLastD [])) = true
          exact endsWithCh_append _ (endsWithCh_append ['/'] (codeFixSeg_endsWith _))
  · intro url segs hseg hne
    subst hseg
    have h1 : stripCh '/' (urlPathCore url.data) ≠ [] := by
      intro h0
      apply hne
      unfold cleanSegs
      rw [h0]
      decide
    simp only [get_clean_path]
    rw [if_neg h1, if_neg hne]
    by_cases h3 : (cleanSegs url.data).length = 1
    · rw [if_pos h3]
      obtain ⟨a, ha⟩ := List.length_eq_one.mp h3
      rw [ha]
      simp [joinCh, codeFixSeg_eq_force]
    · rw [if_neg h3]
      have hdl : (cleanSegs url.data).dropLast ≠ [] := by
        intro h0
        have hlen := congrArg List.length h0
        rw [List.length_dropLast] at hlen
        have hpos : 0 < (cleanSegs url.data).length := List.length_pos.mpr hne
        simp at hlen
        omega
      show joinCh '/' (cleanSegs url.data).dropLast
          ++ '/' :: codeFixSeg ((cleanSegs url.data).getLastD [])
        = joinCh '/' ((cleanSegs url.data).dropLast
            ++ [forceHtmlSeg ((cleanSegs url.data).getLastD [])])
      rw [joinCh_concat _ _ hdl, codeFixSeg_eq_force]

/-- Witness for C1: the parts of `C1_clean_path_spec` with hypotheses,
discharged at concrete URLs. -/
theorem C1_clean_path_witness :
    (urlparse_path "https://example.com" = ""
      ∧ get_clean_path "https://example.com" = "index.html")
    ∧ (cleanSegs ("https://example.com/blog/post-1" : String).data
          = ["blog".data, "post-1".data]
      ∧ (get_clean_path "https://example.com/blog/post-1").data
          = joinCh '/' (["blog".data, "post-1".data].dropLast
              ++ [forceHtmlSeg (["blog".data, "post-1".data].getLastD [])])) :=
  ⟨⟨by decide, C1_clean_path_spec.2.1 _ (Or.inl (by decide))⟩,
   ⟨by decide, C1_clean_path_spec.2.2.2.1 _ _ (by decide) (by decide)⟩⟩

/-! ## Path Mapper: `BaseSiteSpider.get_relative_path` (base_spider.py 304-333)

`os.path.dirname` / `os.path.basename` follow posixpath: `dirname(p)` is the
part of `p` before its final `/` (with posixpath's handling of trailing and
repeated slashes: the head keeps its slashes when it consists only of slashes
and is right-stripped of `/` otherwise); `basename(p)` is the part after the
final `/`. -/

/-- Embedding of `posixpath.dirname`. -/
def pyDirnameCore (l : List Char) : List Char :=
  if (splitCh '/' l).length ≤ 1 then []
  else
    if (joinCh '/' (splitCh '/' l).dropLast).all (· = '/') then
      joinCh '/' (splitCh '/' l).dropLast ++ ['/']
    else rstripCh '/' (joinCh '/' (splitCh '/' l).dropLast)

/-- Embedding of `posixpath.basename`. -/
def pyBasenameCore (l : List Char) : List Char := (splitCh '/' l).getLastD []

/-- String-level `os.path.dirname`. -/
def pyDirname (p : String) : String := ⟨pyDirnameCore p.data⟩

/-- String-level `os.path.basename`. -/
def pyBasename (p : String) : String := ⟨pyBasenameCore p.data⟩

/-- Length of the longest common leading run of equal segments (the
`for i in range(min(...)) … break` loop of `get_relative_path`). -/
def commonLen : List (List Char) → List (List Char) → Nat
  | a :: as, b :: bs => if a = b then commonLen as bs + 1 else 0
  | _, _ => 0

/-- Character-level core of `BaseSiteSpider.get_relative_path`: same-directory
targets yield the bare filename; otherwise one `..` per directory level of
`from_path` below the common directory run, then the remaining directories of
`to_path`, then the filename. The `if relative_parts else basename` fallback
of the source is kept although `relative_parts` is never empty. -/
def getRelCore (fromP toP : List Char) : List Char :=
  if pyDirnameCore fromP = pyDirnameCore toP then pyBasenameCore toP
  else
    let from_parts := if pyDirnameCore fromP = [] then []
      else splitCh '/' (pyDirnameCore fromP)
    let to_parts := if pyDirnameCore toP = [] then []
      else splitCh '/' (pyDirnameCore toP)
    let c := commonLen from_parts to_parts
    let down := joinCh '/' (to_parts.drop c)
    let relParts :=
      List.replicate (from_parts.length - c) "..".data
        ++ (if down ≠ [] then [down] else [])
        ++ [pyBasenameCore toP]
    if relParts = [] then pyBasenameCore toP
    else joinCh '/' relParts

/-- Embedding of `BaseSiteSpider.get_relative_path` (base_spider.py 304-333). -/
def get_relative_path (from_path to_path : String) : String :=
  ⟨getRelCore from_path.data to_path.data⟩

/-- Specification-side resolution of a relative link: starting from the
directory segments of the linking file, each `..` pops one directory and any
other segment is descended into. -/
def resolveParts : List (List Char) → List (List Char) → List (List Char)
  | base, [] => base
  | base, p :: ps =>
    if p = "..".data then resolveParts base.dropLast ps
    else resolveParts (base ++ [p]) ps

/-- Resolve the relative link `rel` against the directory of the clean path
`a` (specification-side meaning of "resolving relative to the directory of
`a`"). -/
def resolveRel (a rel : String) : String :=
  ⟨joinCh '/' (resolveParts (splitCh '/' a.data).dropLast (splitCh '/' rel.data))⟩

/-- Well-formedness of a clean path: its `/`-separated segments are non-empty
and none is the traversal segment `..`. All outputs of `get_clean_path` on
ordinary URLs have this shape. -/
def wfClean (p : String) : Bool :=
  (splitCh '/' p.data).all (fun s => !s.isEmpty && s ≠ "..".data)

/-! ## Split / join lemmas for the relative-path proof -/

theorem splitCh_ne_nil (c : Char) (l : List Char) : splitCh c l ≠ [] := by
  induction l with
  | nil => simp [splitCh]
  | cons x xs ih =>
    by_cases hx : x = c
    · simp [splitCh, hx]
    · simp only [splitCh, if_neg hx]
      split <;> simp

theorem joinCh_cons {c : Char} (a : List Char) {t : List (List Char)}
    (h : t ≠ []) : joinCh c (a :: t) = a ++ c :: joinCh c t := by
  cases t with
  | nil => exact absurd rfl h
  | cons q qs => rfl

theorem joinCh_splitCh (c : Char) (l : List Char) :
    joinCh c (splitCh c l) = l := by
  induction l with
  | nil => rfl
  | cons x xs ih =>
    by_cases hx : x = c
    · subst hx
      have hsp : splitCh x (x :: xs) = [] :: splitCh x xs := by
        simp [splitCh]
      rw [hsp, joinCh_cons _ (splitCh_ne_nil x xs), ih]
      rfl
    · simp only [splitCh, if_neg hx]
      cases h : splitCh c xs with
      | nil => exact absurd h (splitCh_ne_nil c xs)
      | cons p ps =>
        rw [h] at ih
        cases ps with
        | nil =>
          show x :: p = x :: xs
          have hpx : p = xs := ih
          rw [hpx]
        | cons q qs =>
          show (x :: p) ++ c :: joinCh c (q :: qs) = x :: xs
          have hpx : p ++ c :: joinCh c (q :: qs) = xs := ih
          rw [List.cons_append, hpx]

theorem splitCh_sep_not_mem (c : Char) (l : List Char) :
    ∀ p ∈ splitCh c l, c ∉ p := by
  induction l with
  | nil =>
    intro p hp
    simp [splitCh] at hp
    simp [hp]
  | cons x xs ih =>
    intro p hp
    by_cases hx : x = c
    · simp only [splitCh, if_pos hx, List.mem_cons] at hp
      rcases hp with rfl | hp
      · simp
      · exact ih p hp
    · simp only [splitCh, if_neg hx] at hp
      cases h : splitCh c xs with
      | nil => exact absurd h (splitCh_ne_nil c xs)
      | cons q qs =>
        rw [h] at hp
        simp only [List.mem_cons] at hp
        rcases hp with rfl | hp
        · intro hc
          rcases List.mem_cons.mp hc with hcx | hc
          · exact hx hcx.symm
          · exact ih q (by rw [h]; exact List.mem_cons_self q qs) hc
        · exact ih p (by rw [h]; exact List.mem_cons_of_mem q hp)

theorem splitCh_of_not_mem {c : Char} {l : List Char} (h : c ∉ l) :
    splitCh c l = [l] := by
  induction l with
  | nil => rfl
  | cons x xs ih =>
    simp only [List.mem_cons, not_or] at h
    simp only [splitCh, if_neg (Ne.symm h.1)]
    rw [ih h.2]

theorem splitCh_append_cons {c : Char} {p : List Char} (t : List Char)
    (h : c ∉ p) : splitCh c (p ++ c :: t) = p :: splitCh c t := by
  induction p with
  | nil =>
    show splitCh c (c :: t) = [] :: splitCh c t
    simp [splitCh]
  | cons x xs ih =>
    simp only [List.mem_cons, not_or] at h
    show splitCh c (x :: (xs ++ c :: t)) = (x :: xs) :: splitCh c t
    simp only [splitCh, if_neg (Ne.symm h.1)]
    rw [ih h.2]

theorem splitCh_joinCh {c : Char} :
    ∀ {ps : List (List Char)}, ps ≠ [] → (∀ p ∈ ps, c ∉ p) →
      splitCh c (joinCh c ps) = ps := by
  intro ps
  induction ps with
  | nil => intro hne _; exact absurd rfl hne
  | cons p ps ih =>
    intro _ h
    cases ps with
    | nil =>
      show splitCh c p = [p]
      exact splitCh_of_not_mem (h p (List.mem_cons_self p []))
    | cons q qs =>
      show splitCh c (p ++ c :: joinCh c (q :: qs)) = p :: (q :: qs)
      rw [splitCh_append_cons _ (h p (List.mem_cons_self _ _)),
          ih (List.cons_ne_nil q qs) (fun r hr => h r (List.mem_cons_of_mem p hr))]

theorem joinCh_append (c : Char) :
    ∀ {Y : List (List Char)} (Z : List (List Char)), Y ≠ [] → Z ≠ [] →
      joinCh c (Y ++ Z) = joinCh c Y ++ c :: joinCh c Z := by
  intro Y
  induction Y with
  | nil => intro Z h _; exact absurd rfl h
  | cons p ps ih =>
    intro Z _ hZ
    cases ps with
    | nil =>
      cases Z with
      | nil => exact absurd rfl hZ
      | cons z zs => rfl
    | cons q qs =>
      show joinCh c (p :: ((q :: qs) ++ Z)) = (p ++ c :: joinCh c (q :: qs)) ++ c :: joinCh c Z
      rw [joinCh_cons p (by simp), ih Z (List.cons_ne_nil q qs) hZ]
      simp [List.append_assoc]

theorem joinCh_ne_nil {c : Char} :
    ∀ {ps : List (List Char)}, ps ≠ [] → (∀ p ∈ ps, p ≠ []) →
      joinCh c ps ≠ [] := by
  intro ps
  induction ps with
  | nil => intro h _; exact absurd rfl h
  | cons p ps _ =>
    intro _ h
    cases ps with
    | nil => exact h p (List.mem_cons_self _ _)
    | cons q qs =>
      show p ++ c :: joinCh c (q :: qs) ≠ []
      simp

theorem joinCh_last {c : Char} :
    ∀ {ps : List (List Char)}, ps ≠ [] → (∀ p ∈ ps, p ≠ [] ∧ c ∉ p) →
      ∃ t d, joinCh c ps = t ++ [d] ∧ d ≠ c := by
  intro ps
  induction ps with
  | nil => intro h _; exact absurd rfl h
  | cons p ps ih =>
    intro _ h
    cases ps with
    | nil =>
      have hp := h p (List.mem_cons_self _ _)
      rcases List.eq_nil_or_concat p with h0 | ⟨t, d, hcat⟩
      · exact absurd h0 hp.1
      · have hp2 : p = t ++ [d] := by rw [hcat, List.concat_eq_append]
        refine ⟨t, d, ?_, ?_⟩
        · show joinCh c [p] = t ++ [d]
          rw [show joinCh c [p] = p from rfl, hp2]
        · intro hdc
          subst hdc
          apply hp.2
          rw [hp2]
          exact List.mem_append_right t (List.mem_cons_self _ _)
    | cons q qs =>
      obtain ⟨t, d, hjoin, hd⟩ :=
        ih (List.cons_ne_nil q qs) (fun r hr => h r (List.mem_cons_of_mem p hr))
      refine ⟨p ++ c :: t, d, ?_, hd⟩
      show p ++ c :: joinCh c (q :: qs) = (p ++ c :: t) ++ [d]
      rw [hjoin]
      simp [List.append_assoc]

theorem joinCh_flatten (c : Char) :
    ∀ (A : List (List Char)) {B : List (List Char)} (Z : List (List Char)),
      B ≠ [] → joinCh c (A ++ joinCh c B :: Z) = joinCh c (A ++ (B ++ Z)) := by
  intro A
  induction A with
  | nil =>
    intro B Z hB
    cases Z with
    | nil =>
      show joinCh c [joinCh c B] = joinCh c (B ++ [])
      rw [List.append_nil]
      rfl
    | cons z zs =>
      show joinCh c (joinCh c B :: z :: zs) = joinCh c (B ++ z :: zs)
      rw [joinCh_append c _ hB (List.cons_ne_nil z zs)]
      rfl
  | cons a as ih =>
    intro B Z hB
    have h1 : as ++ joinCh c B :: Z ≠ [] := by simp
    have h2 : as ++ (B ++ Z) ≠ [] := by
      intro h0
      rw [List.append_eq_nil, List.append_eq_nil] at h0
      exact hB h0.2.1
    show joinCh c (a :: (as ++ joinCh c B :: Z)) = joinCh c (a :: (as ++ (B ++ Z)))
    rw [joinCh_cons a h1, joinCh_cons a h2, ih Z hB]

theorem rstripCh_concat {c d : Char} (l : List Char) (h : d ≠ c) :
    rstripCh c (l ++ [d]) = l ++ [d] := by
  unfold rstripCh
  rw [List.reverse_append]
  simp [List.dropWhile_cons, h]

theorem mem_of_mem_dropLast {α : Type _} :
    ∀ {l : List α} {a : α}, a ∈ l.dropLast → a ∈ l := by
  intro l
  induction l with
  | nil => intro a h; simp at h
  | cons x xs ih =>
    intro a h
    cases xs with
    | nil => simp at h
    | cons y ys =>
      rw [show (x :: y :: ys).dropLast = x :: (y :: ys).dropLast from rfl] at h
      rcases List.mem_cons.mp h with rfl | h
      · exact List.mem_cons_self _ _
      · exact List.mem_cons_of_mem _ (ih h)

theorem pyDirnameCore_wf {l : List Char}
    (h : ∀ p ∈ splitCh '/' l, p ≠ []) :
    pyDirnameCore l = joinCh '/' (splitCh '/' l).dropLast := by
  unfold pyDirnameCore
  by_cases h1 : (splitCh '/' l).length ≤ 1
  · rw [if_pos h1]
    cases hs : splitCh '/' l with
    | nil => exact absurd hs (splitCh_ne_nil _ _)
    | cons p ps =>
      cases ps with
      | nil => rfl
      | cons q qs =>
        rw [hs] at h1
        simp at h1
  · rw [if_neg h1]
    have hdl : (splitCh '/' l).dropLast ≠ [] := by
      intro h0
      have hlen := congrArg List.length h0
      rw [List.length_dropLast] at hlen
      simp only [List.length_nil] at hlen
      omega
    have hwf : ∀ p ∈ (splitCh '/' l).dropLast, p ≠ [] ∧ '/' ∉ p := fun p hp =>
      ⟨h p (mem_of_mem_dropLast hp),
       splitCh_sep_not_mem '/' l p (mem_of_mem_dropLast hp)⟩
    obtain ⟨t, d, hjoin, hd⟩ := joinCh_last hdl hwf
    rw [hjoin]
    have hall : ¬ ((t ++ [d]).all (fun x => x = '/') = true) := by
      simp [List.all_append, hd]
    rw [if_neg hall, rstripCh_concat t hd]

theorem dirParts_wf {l : List Char} (h : ∀ p ∈ splitCh '/' l, p ≠ []) :
    (if pyDirnameCore l = [] then [] else splitCh '/' (pyDirnameCore l))
      = (splitCh '/' l).dropLast := by
  rw [pyDirnameCore_wf h]
  cases hdl : (splitCh '/' l).dropLast with
  | nil => rfl
  | cons p ps =>
    have hne2 : ∀ q ∈ p :: ps, q ≠ [] := by
      intro q hq
      exact h q (mem_of_mem_dropLast (hdl ▸ hq))
    have hwf : ∀ q ∈ p :: ps, '/' ∉ q := by
      intro q hq
      exact splitCh_sep_not_mem '/' l q (mem_of_mem_dropLast (hdl ▸ hq))
    have hjoin_ne : joinCh '/' (p :: ps) ≠ [] :=
      joinCh_ne_nil (List.cons_ne_nil _ _) hne2
    rw [if_neg hjoin_ne]
    exact splitCh_joinCh (List.cons_ne_nil _ _) hwf

theorem commonLen_le_left :
    ∀ (x y : List (List Char)), commonLen x y ≤ x.length := by
  intro x
  induction x with
  | nil => intro y; simp [commonLen]
  | cons a as ih =>
    intro y
    cases y with
    | nil => simp [commonLen]
    | cons b bs =>
      by_cases hab : a = b
      · simp only [commonLen, if_pos hab, List.length_cons]
        exact Nat.succ_le_succ (ih bs)
      · simp [commonLen, hab]

theorem commonLen_le_right :
    ∀ (x y : List (List Char)), commonLen x y ≤ y.length := by
  intro x
  induction x with
  | nil => intro y; simp [commonLen]
  | cons a as ih =>
    intro y
    cases y with
    | nil => simp [commonLen]
    | cons b bs =>
      by_cases hab : a = b
      · simp only [commonLen, if_pos hab, List.length_cons]
        exact Nat.succ_le_succ (ih bs)
      · simp [commonLen, hab]

theorem take_commonLen :
    ∀ (x y : List (List Char)), x.take (commonLen x y) = y.take (commonLen x y) := by
  intro x
  induction x with
  | nil => intro y; simp [commonLen]
  | cons a as ih =>
    intro y
    cases y with
    | nil => simp [commonLen]
    | cons b bs =>
      by_cases hab : a = b
      · simp only [commonLen, if_pos hab, List.take_succ_cons]
        rw [hab, ih bs]
      · simp [commonLen, hab]

theorem resolveParts_no_dots :
    ∀ {ps : List (List Char)} (base : List (List Char)),
      "..".data ∉ ps → resolveParts base ps = base ++ ps := by
  intro ps
  induction ps with
  | nil => intro base _; simp [resolveParts]
  | cons p ps ih =>
    intro base h
    simp only [List.mem_cons, not_or] at h
    simp only [resolveParts, if_neg (Ne.symm h.1)]
    rw [ih _ h.2]
    simp

theorem take_dropLast {α : Type _} :
    ∀ (l : List α) (k : Nat), k + 1 ≤ l.length →
      l.dropLast.take k = l.take k := by
  intro l
  induction l with
  | nil => intro k h; simp at h
  | cons x xs ih =>
    intro k h
    cases xs with
    | nil =>
      simp only [List.length_cons, List.length_nil] at h
      have hk : k = 0 := by omega
      simp [hk]
    | cons y ys =>
      rw [show (x :: y :: ys).dropLast = x :: (y :: ys).dropLast from rfl]
      cases k with
      | zero => simp
      | succ k =>
        simp only [List.take_succ_cons]
        rw [ih k ?_]
        simp only [List.length_cons] at h ⊢
        omega

theorem resolveParts_reps :
    ∀ (n : Nat) (base ps : List (List Char)), n ≤ base.length →
      resolveParts base (List.replicate n "..".data ++ ps)
        = resolveParts (base.take (base.length - n)) ps := by
  intro n
  induction n with
  | zero =>
    intro base ps _
    simp [List.take_length]
  | succ n ih =>
    intro base ps h
    rw [List.replicate_succ, List.cons_append]
    simp only [resolveParts, if_pos rfl]
    rw [ih base.dropLast ps (by rw [List.length_dropLast]; omega)]
    have htake : base.dropLast.take (base.dropLast.length - n)
        = base.take (base.length - (n + 1)) := by
      rw [List.length_dropLast,
          take_dropLast base (base.length - 1 - n) (by omega),
          show base.length - 1 - n = base.length - (n + 1) from by omega]
    rw [htake]
    simp

theorem joinCh_inj {c : Char} {X Y : List (List Char)}
    (hX : ∀ p ∈ X, p ≠ [] ∧ c ∉ p) (hY : ∀ p ∈ Y, p ≠ [] ∧ c ∉ p)
    (h : joinCh c X = joinCh c Y) : X = Y := by
  cases X with
  | nil =>
    cases Y with
    | nil => rfl
    | cons y ys =>
      exact absurd h.symm
        (joinCh_ne_nil (List.cons_ne_nil _ _) (fun p hp => (hY p hp).1))
  | cons x xs =>
    cases Y with
    | nil =>
      exact absurd h
        (joinCh_ne_nil (List.cons_ne_nil _ _) (fun p hp => (hX p hp).1))
    | cons y ys =>
      have hsx := @splitCh_joinCh c (x :: xs) (List.cons_ne_nil x xs)
        (fun p hp => (hX p hp).2)
      rw [← hsx, h, splitCh_joinCh (List.cons_ne_nil y ys)
        (fun p hp => (hY p hp).2)]

theorem wfClean_spec {p : String} (h : wfClean p = true) :
    ∀ s ∈ splitCh '/' p.data, s ≠ [] ∧ s ≠ "..".data := by
  intro s hs
  unfold wfClean at h
  rw [List.all_eq_true] at h
  have h2 := h s hs
  simp only [Bool.and_eq_true, Bool.not_eq_true', decide_eq_true_eq, ne_eq] at h2
  refine ⟨?_, h2.2⟩
  intro h0
  rw [h0] at h2
  exact absurd h2.1 (by simp)

/-- C2: for well-formed clean paths, resolving the link produced by
`get_relative_path a b` against the directory of `a` yields exactly `b`; the
same-directory case returns the bare filename of `b`; and from
`blog/post-1.html` a link to `index.html` rewrites to `../index.html`. -/
theorem C2_relative_path_spec :
    (∀ a b : String, wfClean a = true → wfClean b = true →
        resolveRel a (get_relative_path a b) = b)
    ∧ (∀ a b : String, pyDirname a = pyDirname b →
        get_relative_path a b = pyBasename b)
    ∧ get_relative_path "blog/post-1.html" "index.html" = "../index.html" := by
  refine ⟨?_, ?_, by decide⟩
  · intro a b ha hb
    have hA := wfClean_spec ha
    have hB := wfClean_spec hb
    obtain ⟨B0, lastB, hBcat⟩ :
        ∃ B0 lastB, splitCh '/' b.data = B0 ++ [lastB] := by
      rcases List.eq_nil_or_concat (splitCh '/' b.data) with h0 | ⟨t, d, hcat⟩
      · exact absurd h0 (splitCh_ne_nil _ _)
      · exact ⟨t, d, by rw [hcat, List.concat_eq_append]⟩
    have hBdl : (splitCh '/' b.data).dropLast = B0 := by
      rw [hBcat, List.dropLast_concat]
    have hbase : pyBasenameCore b.data = lastB := by
      unfold pyBasenameCore
      rw [hBcat, List.getLastD_concat]
    have hlastB_mem : lastB ∈ splitCh '/' b.data := by
      rw [hBcat]; exact List.mem_append_right _ (List.mem_cons_self _ _)
    have hlastB_slash : '/' ∉ lastB := splitCh_sep_not_mem '/' b.data lastB hlastB_mem
    have hlastB_dots : lastB ≠ "..".data := (hB lastB hlastB_mem).2
    have hAne : ∀ p ∈ splitCh '/' a.data, p ≠ [] := fun p hp => (hA p hp).1
    have hBne : ∀ p ∈ splitCh '/' b.data, p ≠ [] := fun p hp => (hB p hp).1
    have hnodLast : "..".data ∉ [lastB] := by
      intro hmem
      exact hlastB_dots (List.mem_singleton.mp hmem).symm
    set AD := (splitCh '/' a.data).dropLast with hADdef
    set BD := (splitCh '/' b.data).dropLast with hBDdef
    suffices hsuf : joinCh '/' (resolveParts AD
        (splitCh '/' (getRelCore a.data b.data))) = b.data by
      show (⟨joinCh '/' (resolveParts AD
        (splitCh '/' (getRelCore a.data b.data)))⟩ : String) = b
      rw [hsuf]
    by_cases hdir : pyDirnameCore a.data = pyDirnameCore b.data
    · have hg : getRelCore a.data b.data = lastB := by
        unfold getRelCore
        rw [if_pos hdir, hbase]
      rw [hg, splitCh_of_not_mem hlastB_slash,
          resolveParts_no_dots _ hnodLast]
      have hAB : AD = B0 := by
        have hwfA : ∀ p ∈ AD, p ≠ [] ∧ '/' ∉ p := by
          rw [hADdef]
          intro p hp
          exact ⟨hAne p (mem_of_mem_dropLast hp),
                 splitCh_sep_not_mem '/' a.data p (mem_of_mem_dropLast hp)⟩
        have hwfB : ∀ p ∈ BD, p ≠ [] ∧ '/' ∉ p := by
          rw [hBDdef]
          intro p hp
          exact ⟨hBne p (mem_of_mem_dropLast hp),
                 splitCh_sep_not_mem '/' b.data p (mem_of_mem_dropLast hp)⟩
        have hinj : AD = BD := by
          apply joinCh_inj hwfA hwfB
          rw [hADdef, hBDdef, ← pyDirnameCore_wf hAne, ← pyDirnameCore_wf hBne]
          exact hdir
        rw [hinj]
        exact hBdl
      rw [hAB, ← hBcat, joinCh_splitCh]
    · have hFP := dirParts_wf hAne
      have hTP := dirParts_wf hBne
      rw [← hADdef] at hFP
      rw [← hBDdef] at hTP
      have hwfD : ∀ p ∈ BD, p ≠ [] ∧ '/' ∉ p ∧ p ≠ "..".data := by
        rw [hBDdef]
        intro p hp
        have hp2 : p ∈ splitCh '/' b.data := mem_of_mem_dropLast hp
        exact ⟨hBne p hp2, splitCh_sep_not_mem '/' b.data p hp2, (hB p hp2).2⟩
      simp only [getRelCore]
      rw [if_neg hdir, hFP, hTP, hbase]
      set cl := commonLen AD BD with hcl
      have hclA : cl ≤ AD.length := by
        rw [hcl]; exact commonLen_le_left AD BD
      have hidx : AD.length - (AD.length - cl) = cl := by omega
      have hnodRep : ∀ p ∈ List.replicate (AD.length - cl) "..".data, '/' ∉ p := by
        intro p hp
        rw [List.eq_of_mem_replicate hp]
        decide
      by_cases hDnil : BD.drop cl = []
      · rw [hDnil]
        have hif : (if joinCh '/' ([] : List (List Char)) ≠ [] then
            [joinCh '/' ([] : List (List Char))] else ([] : List (List Char))) = [] := by
          simp [joinCh]
        rw [hif, List.append_nil]
        rw [if_neg (by simp :
          ¬(List.replicate (AD.length - cl) "..".data ++ [lastB] = []))]
        have hsplit := @splitCh_joinCh '/'
          (List.replicate (AD.length - cl) "..".data ++ [lastB])
          (by simp)
          (by
            intro p hp
            rcases List.mem_append.mp hp with hp | hp
            · exact hnodRep p hp
            · rw [List.mem_singleton.mp hp]; exact hlastB_slash)
        rw [hsplit, resolveParts_reps _ _ _ (Nat.sub_le _ _), hidx,
            resolveParts_no_dots _ hnodLast]
        have hBDlen : BD.length ≤ cl := by
          have := congrArg List.length hDnil
          rw [List.length_drop] at this
          simp at this
          omega
        have ht := take_commonLen AD BD
        rw [← hcl] at ht
        have htB : BD.take cl = BD := List.take_of_length_le hBDlen
        rw [ht, htB, hBdl, ← hBcat, joinCh_splitCh]
      · have hDne2 : ∀ p ∈ BD.drop cl, p ≠ [] := fun p hp =>
          (hwfD p (List.drop_subset cl BD hp)).1
        have hdown_ne : joinCh '/' (BD.drop cl) ≠ [] := joinCh_ne_nil hDnil hDne2
        rw [if_pos hdown_ne, List.append_assoc, List.singleton_append]
        rw [if_neg (by simp :
          ¬(List.replicate (AD.length - cl) "..".data
              ++ (joinCh '/' (BD.drop cl) :: [lastB]) = []))]
        rw [joinCh_flatten '/' _ _ hDnil]
        have hsplit := @splitCh_joinCh '/'
          (List.replicate (AD.length - cl) "..".data ++ (BD.drop cl ++ [lastB]))
          (by simp)
          (by
            intro p hp
            rcases List.mem_append.mp hp with hp | hp
            · exact hnodRep p hp
            · rcases List.mem_append.mp hp with hp | hp
              · exact (hwfD p (List.drop_subset cl BD hp)).2.1
              · rw [List.mem_singleton.mp hp]; exact hlastB_slash)
        rw [hsplit, resolveParts_reps _ _ _ (Nat.sub_le _ _), hidx,
            resolveParts_no_dots _ ?hnd]
        case hnd =>
          intro hmem
          rcases List.mem_append.mp hmem with hm | hm
          · exact (hwfD _ (List.drop_subset cl BD hm)).2.2 rfl
          · exact hlastB_dots (List.mem_singleton.mp hm).symm
        have ht := take_commonLen AD BD
        rw [← hcl] at ht
        rw [ht, ← List.append_assoc, List.take_append_drop, hBdl,
            ← hBcat, joinCh_splitCh]
  · intro a b h
    have h2 : pyDirnameCore a.data = pyDirnameCore b.data := congrArg String.data h
    show (⟨getRelCore a.data b.data⟩ : String) = pyBasename b
    unfold getRelCore
    rw [if_pos h2]
    rfl

/-- Witness for C2: the hypotheses of `C2_relative_path_spec` discharged at
the concrete spec-example pair. -/
theorem C2_relative_path_witness :
    (wfClean "blog/post-1.html" = true ∧ wfClean "index.html" = true
      ∧ resolveRel "blog/post-1.html"
          (get_relative_path "blog/post-1.html" "index.html") = "index.html")
    ∧ (pyDirname "blog/a.html" = pyDirname "blog/b.html"
      ∧ get_relative_path "blog/a.html" "blog/b.html" = pyBasename "blog/b.html") :=
  ⟨⟨by decide, by decide,
    C2_relative_path_spec.1 _ _ (by decide) (by decide)⟩,
   ⟨by decide, C2_relative_path_spec.2.1 _ _ (by decide)⟩⟩

/-! ## Page Crawler: traversal models (base_spider.py 23-152, 220-237)

A crawl runs against an abstract web `Web`: `web url = none` models a fetch
attempt that fails (non-200 status, timeout or transport error — all caught
and logged by the source), and `web url = some links` models a 200 response
whose page yields `links` as the document-order list of already-resolved
internal link URLs (the values `urljoin(url, href).split('#')[0].split('?')[0]`
of the hrefs accepted by `is_internal_link`; HTML parsing, titles and asset
handling are modelled separately). Recursion is fuel-indexed; the source's
recursion is bounded by the same guards, so every run of the source is a run
of the model with enough fuel. Completed fetch attempts are recorded in an
explicit `fetchLog` trace. -/

/-- Abstract web: URL to optional list of cleaned internal link URLs. -/
def Web : Type := String → Option (List String)

/-- The in-page dedup loop over discovered links (`if clean_url not in
internal_links and clean_url != url` for discovery, and the same without the
`!= url` test in `scrape_internal_links`, selected by `excl`). -/
def dedupLinks (excl : Option String) (acc : List String) : List String → List String
  | [] => acc
  | l :: ls =>
    if l ∈ acc ∨ excl = some l then dedupLinks excl acc ls
    else dedupLinks excl (acc ++ [l]) ls

/-- Link dedup of `discover_page_links` (skips links equal to the page URL). -/
def dedupNe (url : String) (ls : List String) : List String := dedupLinks (some url) [] ls

/-- Link dedup of `scrape_internal_links` (keeps links equal to the page URL). -/
def dedupK (ls : List String) : List String := dedupLinks none [] ls

/-- State of a Discovery-mode traversal: `visited_pages`, the
`discovered_pages` records (url and clean path; the title field is elided),
and the trace of completed fetch attempts with the depth they occurred at. -/
structure DiscState where
  visited : List String
  discovered : List (String × String)
  fetchLog : List (String × Nat)

/-- Embedding of `BaseSiteSpider.discover_page_links` (base_spider.py 32-78):
return on already-visited URLs or depth above 3; mark visited before
fetching; on success record the page and recurse into the first 10 new
deduplicated internal links. -/
def discover_page_links (web : Web) : Nat → DiscState → String → Nat → DiscState
  | 0, st, _, _ => st
  | fuel + 1, st, url, depth =>
    if url ∈ st.visited ∨ depth > 3 then st
    else
      let st1 : DiscState := { st with visited := st.visited ++ [url] }
      match web url with
      | none => { st1 with fetchLog := st1.fetchLog ++ [(url, depth)] }
      | some links =>
        let st2 : DiscState := { st1 with
          fetchLog := st1.fetchLog ++ [(url, depth)],
          discovered := st1.discovered ++ [(url, get_clean_path url)] }
        ((dedupNe url links).take 10).foldl
          (fun acc l =>
            if l ∈ acc.visited then acc
            else discover_page_links web fuel acc l (depth + 1)) st2

/-- Embedding of `BaseSiteSpider.discover_pages` (base_spider.py 23-30):
start a Discovery traversal from a fresh state at depth 0. -/
def discover_pages (web : Web) (fuel : Nat) (url : String) : DiscState :=
  discover_page_links web fuel ⟨[], [], []⟩ url 0

/-- The constructor arguments of `BaseSiteSpider.__init__` that drive the
Mirror-mode traversal. -/
structure MirrorCfg where
  start : String
  mode : String
  selected : Option (List String)

/-- Python truthiness of `self.selected_pages` (`None` and the empty set are
falsy). -/
def selTruthy : Option (List String) → Bool
  | none => false
  | some l => !l.isEmpty

/-- State of a Mirror-mode traversal: `visited_pages`, the trace of completed
page fetch attempts, `page_mapping`, and the clean paths of the HTML files
written. -/
structure MirrorState where
  visited : List String
  fetchLog : List String
  pageMapping : List (String × String)
  written : List String

/-- Embedding of `BaseSiteSpider.scrape_page` (base_spider.py 95-152): return
on visited URLs, on non-start URLs in single-page mode, on URLs outside a
non-empty selection, and at the 150-visited-page ceiling; otherwise mark
visited, fetch, and on success record the mapping, write the page, and (in
multi-page mode without a selection) recurse through the page's deduplicated
internal links as `scrape_internal_links` does. Asset downloads (line 140)
are modelled separately by the asset-fetcher model. -/
def scrape_page (web : Web) (cfg : MirrorCfg) : Nat → MirrorState → String → MirrorState
  | 0, st, _ => st
  | fuel + 1, st, url =>
    if url ∈ st.visited then st
    else if cfg.mode = "single_page" ∧ url ≠ cfg.start then st
    else if selTruthy cfg.selected = true ∧ url ∉ cfg.selected.getD [] then st
    else if 150 ≤ st.visited.length then st
    else
      let st1 : MirrorState := { st with visited := st.visited ++ [url] }
      match web url with
      | none => { st1 with fetchLog := st1.fetchLog ++ [url] }
      | some links =>
        let st2 : MirrorState := { st1 with
          fetchLog := st1.fetchLog ++ [url],
          pageMapping := st1.pageMapping ++ [(url, get_clean_path url)],
          written := st1.written ++ [get_clean_path url] }
        if cfg.mode = "multi_page" ∧ selTruthy cfg.selected = false then
          (dedupK links).foldl
            (fun acc l =>
              if l ∈ acc.visited then acc
              else scrape_page web cfg fuel acc l) st2
        else st2

/-- Embedding of `BaseSiteSpider.scrape` (base_spider.py 80-93): single-page
mode scrapes the start URL; a truthy selection is iterated page by page
(`self.selected_pages` is a Python set, so iteration order is arbitrary; the
model iterates the given list order); otherwise the start URL seeds an
unrestricted traversal. -/
def scrape (web : Web) (cfg : MirrorCfg) (fuel : Nat) : MirrorState :=
  if cfg.mode = "single_page" then scrape_page web cfg fuel ⟨[], [], [], []⟩ cfg.start
  else if selTruthy cfg.selected = true then
    (cfg.selected.getD []).foldl
      (fun st u => scrape_page web cfg fuel st u) ⟨[], [], [], []⟩
  else scrape_page web cfg fuel ⟨[], [], [], []⟩ cfg.start

/-! ## Crawl invariants -/

theorem foldl_rel {σ α : Type _} (R : σ → σ → Prop)
    (hrefl : ∀ s, R s s) (htrans : ∀ {s t u : σ}, R s t → R t u → R s u)
    (f : σ → α → σ) (hf : ∀ s a, R s (f s a)) :
    ∀ (l : List α) (s : σ), R s (List.foldl f s l) := by
  intro l
  induction l with
  | nil => intro s; exact hrefl s
  | cons a as ih => intro s; exact htrans (hf s a) (ih (f s a))

theorem foldl_congr {σ α : Type _} {f g : σ → α → σ} :
    ∀ {l : List α}, (∀ s a, a ∈ l → f s a = g s a) →
      ∀ (s : σ), List.foldl f s l = List.foldl g s l := by
  intro l
  induction l with
  | nil => intro _ s; rfl
  | cons a as ih =>
    intro h s
    show List.foldl f (f s a) as = List.foldl g (g s a) as
    rw [h s a (List.mem_cons_self _ _)]
    exact ih (fun s b hb => h s b (List.mem_cons_of_mem _ hb)) _

theorem nodup_snoc {α : Type _} {l : List α} {a : α}
    (h : l.Nodup) (ha : a ∉ l) : (l ++ [a]).Nodup := by
  simp [List.nodup_append, h, ha]

/-- Invariant of a Mirror traversal: the fetch log has no duplicates, every
fetched URL is visited, and the visited set respects the 150-page ceiling. -/
def MirrorInv (st : MirrorState) : Prop :=
  st.fetchLog.Nodup ∧ (∀ u ∈ st.fetchLog, u ∈ st.visited)
    ∧ st.visited.length ≤ 150

/-- Step relation used to propagate `MirrorInv` through a traversal. -/
def MirrorR (s t : MirrorState) : Prop :=
  (MirrorInv s → MirrorInv t) ∧ s.visited ⊆ t.visited

theorem MirrorR_refl (s : MirrorState) : MirrorR s s := ⟨id, fun _ h => h⟩

theorem MirrorR_trans {s t u : MirrorState} (h1 : MirrorR s t) (h2 : MirrorR t u) :
    MirrorR s u := ⟨fun h => h2.1 (h1.1 h), fun _ hx => h2.2 (h1.2 hx)⟩

theorem scrape_page_R (web : Web) (cfg : MirrorCfg) :
    ∀ (fuel : Nat) (st : MirrorState) (url : String),
      MirrorR st (scrape_page web cfg fuel st url) := by
  intro fuel
  induction fuel with
  | zero => intro st url; exact MirrorR_refl st
  | succ fuel ih =>
    intro st url
    simp only [scrape_page]
    by_cases h1 : url ∈ st.visited
    · rw [if_pos h1]; exact MirrorR_refl st
    · rw [if_neg h1]
      by_cases h2 : cfg.mode = "single_page" ∧ url ≠ cfg.start
      · rw [if_pos h2]; exact MirrorR_refl st
      · rw [if_neg h2]
        by_cases h3 : selTruthy cfg.selected = true ∧ url ∉ cfg.selected.getD []
        · rw [if_pos h3]; exact MirrorR_refl st
        · rw [if_neg h3]
          by_cases h4 : 150 ≤ st.visited.length
          · rw [if_pos h4]; exact MirrorR_refl st
          · rw [if_neg h4]
            have hstep : ∀ (extraMap : List (String × String)) (extraW : List String),
                MirrorR st ⟨st.visited ++ [url], st.fetchLog ++ [url],
                  st.pageMapping ++ extraMap, st.written ++ extraW⟩ := by
              intro extraMap extraW
              constructor
              · intro hInv
                refine ⟨nodup_snoc hInv.1 (fun hm => h1 (hInv.2.1 url hm)), ?_, ?_⟩
                · intro u hu
                  rcases List.mem_append.mp hu with hu | hu
                  · exact List.mem_append_left _ (hInv.2.1 u hu)
                  · exact List.mem_append_right _ hu
                · rw [List.length_append]
                  simp only [List.length_cons, List.length_nil]
                  omega
              · intro x hx
                exact List.mem_append_left _ hx
            split
            · exact hstep [] []
            · split
              · refine MirrorR_trans
                  (hstep [(url, get_clean_path url)] [get_clean_path url]) ?_
                apply foldl_rel MirrorR MirrorR_refl MirrorR_trans
                intro s a
                by_cases hv : a ∈ s.visited
                · rw [if_pos hv]; exact MirrorR_refl s
                · rw [if_neg hv]; exact ih s a
              · exact hstep [(url, get_clean_path url)] [get_clean_path url]

/-- Invariant of a Discovery traversal. -/
def DiscInv (st : DiscState) : Prop :=
  (st.fetchLog.map Prod.fst).Nodup ∧ (∀ e ∈ st.fetchLog, e.1 ∈ st.visited)
    ∧ (∀ e ∈ st.fetchLog, e.2 ≤ 3)

/-- Step relation used to propagate `DiscInv` through a traversal. -/
def DiscR (s t : DiscState) : Prop :=
  (DiscInv s → DiscInv t) ∧ s.visited ⊆ t.visited

theorem DiscR_refl (s : DiscState) : DiscR s s := ⟨id, fun _ h => h⟩

theorem DiscR_trans {s t u : DiscState} (h1 : DiscR s t) (h2 : DiscR t u) :
    DiscR s u := ⟨fun h => h2.1 (h1.1 h), fun _ hx => h2.2 (h1.2 hx)⟩

theorem discover_page_links_R (web : Web) :
    ∀ (fuel : Nat) (st : DiscState) (url : String) (depth : Nat),
      DiscR st (discover_page_links web fuel st url depth) := by
  intro fuel
  induction fuel with
  | zero => intro st url _; exact DiscR_refl st
  | succ fuel ih =>
    intro st url depth
    simp only [discover_page_links]
    by_cases h1 : url ∈ st.visited ∨ depth > 3
    · rw [if_pos h1]; exact DiscR_refl st
    · rw [if_neg h1]
      push_neg at h1
      have hstep : ∀ (extraD : List (String × String)),
          DiscR st ⟨st.visited ++ [url], st.discovered ++ extraD,
            st.fetchLog ++ [(url, depth)]⟩ := by
        intro extraD
        constructor
        · intro hInv
          refine ⟨?_, ?_, ?_⟩
          · rw [List.map_append]
            apply nodup_snoc hInv.1
            intro hm
            rcases List.mem_map.mp hm with ⟨e, he, hee⟩
            have hee2 : e.1 = url := hee
            exact h1.1 (hee2 ▸ hInv.2.1 e he)
          · intro e he
            rcases List.mem_append.mp he with he | he
            · exact List.mem_append_left _ (hInv.2.1 e he)
            · rw [List.mem_singleton.mp he]
              exact List.mem_append_right _ (List.mem_cons_self _ _)
          · intro e he
            rcases List.mem_append.mp he with he | he
            · exact hInv.2.2 e he
            · rw [List.mem_singleton.mp he]
              omega
        · intro x hx
          exact List.mem_append_left _ hx
      cases hw : web url with
      | none => exact hstep []
      | some links =>
        refine DiscR_trans (hstep [(url, get_clean_path url)]) ?_
        apply foldl_rel DiscR DiscR_refl DiscR_trans
        intro s a
        by_cases hv : a ∈ s.visited
        · rw [if_pos hv]; exact DiscR_refl s
        · rw [if_neg hv]; exact ih s a (depth + 1)

theorem dedupLinks_clean (url : String) :
    ∀ (ls acc : List String), (acc ++ ls).Nodup → url ∉ ls →
      dedupLinks (some url) acc ls = acc ++ ls := by
  intro ls
  induction ls with
  | nil => intro acc _ _; simp [dedupLinks]
  | cons l ls ih =>
    intro acc hnd hurl
    have hlacc : l ∉ acc := by
      intro hmem
      rcases List.nodup_append.mp hnd with ⟨_, _, hdisj⟩
      exact hdisj hmem (List.mem_cons_self _ _)
    have hne : ¬(some url = some l) := by
      intro h0
      exact hurl (by
        rw [Option.some_inj] at h0
        rw [h0]
        exact List.mem_cons_self _ _)
    rw [dedupLinks, if_neg (by
      intro h0
      rcases h0 with h0 | h0
      · exact hlacc h0
      · exact hne h0)]
    rw [ih (acc ++ [l]) (by rw [List.append_assoc, List.singleton_append]; exact hnd)
        (fun hm => hurl (List.mem_cons_of_mem _ hm))]
    rw [List.append_assoc, List.singleton_append]

theorem dedupLinks_inv (url : String) :
    ∀ (ls acc : List String), acc.Nodup → url ∉ acc →
      (dedupLinks (some url) acc ls).Nodup ∧ url ∉ dedupLinks (some url) acc ls := by
  intro ls
  induction ls with
  | nil => intro acc h1 h2; exact ⟨h1, h2⟩
  | cons l ls ih =>
    intro acc h1 h2
    by_cases hc : l ∈ acc ∨ some url = some l
    · rw [dedupLinks, if_pos hc]
      exact ih acc h1 h2
    · rw [dedupLinks, if_neg hc]
      push_neg at hc
      refine ih (acc ++ [l]) (nodup_snoc h1 hc.1) ?_
      intro hm
      rcases List.mem_append.mp hm with hm | hm
      · exact h2 hm
      · exact hc.2 (by rw [List.mem_singleton.mp hm])

theorem dedupNe_nodup (url : String) (ls : List String) :
    (dedupNe url ls).Nodup ∧ url ∉ dedupNe url ls :=
  dedupLinks_inv url ls [] List.nodup_nil (by simp)

theorem dedupNe_idem (url : String) (ls : List String) :
    dedupNe url ((dedupNe url ls).take 10) = (dedupNe url ls).take 10 := by
  have h := dedupNe_nodup url ls
  have hnd : ((dedupNe url ls).take 10).Nodup :=
    (List.take_sublist 10 _).nodup h.1
  have hnm : url ∉ (dedupNe url ls).take 10 :=
    fun hm => h.2 (List.take_subset _ _ hm)
  unfold dedupNe
  exact dedupLinks_clean url _ [] (by simpa using hnd) hnm

theorem discover_trunc (web : Web) :
    ∀ (fuel : Nat) (st : DiscState) (url : String) (depth : Nat),
      discover_page_links web fuel st url depth
        = discover_page_links
            (fun u => (web u).map (fun ls => (dedupNe u ls).take 10))
            fuel st url depth := by
  intro fuel
  induction fuel with
  | zero => intro st url depth; rfl
  | succ fuel ih =>
    intro st url depth
    simp only [discover_page_links]
    by_cases h1 : url ∈ st.visited ∨ depth > 3
    · rw [if_pos h1, if_pos h1]
    · rw [if_neg h1, if_neg h1]
      cases hw : web url with
      | none => simp [hw]
      | some links =>
        simp only [hw, Option.map_some']
        rw [dedupNe_idem, List.take_take, Nat.min_self]
        apply foldl_congr
        intro s a _
        by_cases hv : a ∈ s.visited
        · rw [if_pos hv, if_pos hv]
        · rw [if_neg hv, if_neg hv]
          exact ih s a (depth + 1)

/-- C3: within one crawl job every URL is fetched at most once — both
traversals return the state unchanged on an already-visited URL, and the
completed fetch logs of a Discovery run and of a Mirror run never repeat a
URL. -/
theorem C3_at_most_once_fetch :
    (∀ (web : Web) (fuel : Nat) (url : String),
        ((discover_pages web fuel url).fetchLog.map Prod.fst).Nodup)
    ∧ (∀ (web : Web) (cfg : MirrorCfg) (fuel : Nat),
        (scrape web cfg fuel).fetchLog.Nodup)
    ∧ (∀ (web : Web) (cfg : MirrorCfg) (fuel : Nat) (st : MirrorState)
        (url : String), url ∈ st.visited →
        scrape_page web cfg fuel st url = st)
    ∧ (∀ (web : Web) (fuel : Nat) (st : DiscState) (url : String)
        (depth : Nat), url ∈ st.visited →
        discover_page_links web fuel st url depth = st) := by
  have hinit : DiscInv ⟨[], [], []⟩ := ⟨List.nodup_nil, by simp, by simp⟩
  have hinitM : MirrorInv ⟨[], [], [], []⟩ := ⟨List.nodup_nil, by simp, by simp⟩
  refine ⟨?_, ?_, ?_, ?_⟩
  · intro web fuel url
    exact (((discover_page_links_R web fuel ⟨[], [], []⟩ url 0).1) hinit).1
  · intro web cfg fuel
    unfold scrape
    split_ifs with h1 h2
    · exact ((scrape_page_R web cfg fuel _ _).1 hinitM).1
    · exact ((foldl_rel MirrorR MirrorR_refl MirrorR_trans _
        (fun s a => scrape_page_R web cfg fuel s a) _ _).1 hinitM).1
    · exact ((scrape_page_R web cfg fuel _ _).1 hinitM).1
  · intro web cfg fuel st url h
    cases fuel with
    | zero => rfl
    | succ fuel => rw [scrape_page, if_pos h]
  · intro web fuel st url depth h
    cases fuel with
    | zero => rfl
    | succ fuel => rw [discover_page_links, if_pos (Or.inl h)]

/-- Witness for C3: the already-visited early-return conjuncts discharged on
a concrete state. -/
theorem C3_at_most_once_fetch_witness :
    ("https://s.example/" ∈ (⟨["https://s.example/"], [], [], []⟩ : MirrorState).visited
      ∧ scrape_page (fun _ => some []) ⟨"https://s.example/", "multi_page", none⟩ 5
          ⟨["https://s.example/"], [], [], []⟩ "https://s.example/"
        = ⟨["https://s.example/"], [], [], []⟩)
    ∧ ("https://s.example/" ∈ (⟨["https://s.example/"], [], []⟩ : DiscState).visited
      ∧ discover_page_links (fun _ => some []) 5
          ⟨["https://s.example/"], [], []⟩ "https://s.example/" 0
        = ⟨["https://s.example/"], [], []⟩) :=
  ⟨⟨by decide, C3_at_most_once_fetch.2.2.1 _ _ _ _ _ (by decide)⟩,
   ⟨by decide, C3_at_most_once_fetch.2.2.2 _ _ _ _ _ (by decide)⟩⟩

/-- C4: the traversal ceilings — every completed Discovery fetch happens at
depth at most 3, a Discovery run only ever follows the first 10 new
deduplicated internal links of each page (truncating every page's link list
to those 10 does not change the run), and a Mirror run never lets the
visited set exceed 150 URLs. -/
theorem C4_traversal_ceilings :
    (∀ (web : Web) (fuel : Nat) (url : String),
        ((discover_pages web fuel url).fetchLog.all
          (fun e => decide (e.2 ≤ 3))) = true)
    ∧ (∀ (web : Web) (fuel : Nat) (url : String),
        discover_pages web fuel url
          = discover_pages
              (fun u => (web u).map (fun ls => (dedupNe u ls).take 10))
              fuel url)
    ∧ (∀ (web : Web) (cfg : MirrorCfg) (fuel : Nat),
        (scrape web cfg fuel).visited.length ≤ 150) := by
  have hinit : DiscInv ⟨[], [], []⟩ := ⟨List.nodup_nil, by simp, by simp⟩
  have hinitM : MirrorInv ⟨[], [], [], []⟩ := ⟨List.nodup_nil, by simp, by simp⟩
  refine ⟨?_, ?_, ?_⟩
  · intro web fuel url
    rw [List.all_eq_true]
    intro e he
    rw [decide_eq_true_eq]
    exact (((discover_page_links_R web fuel ⟨[], [], []⟩ url 0).1) hinit).2.2 e he
  · intro web fuel url
    exact discover_trunc web fuel ⟨[], [], []⟩ url 0
  · intro web cfg fuel
    unfold scrape
    split_ifs with h1 h2
    · exact ((scrape_page_R web cfg fuel _ _).1 hinitM).2.2
    · exact ((foldl_rel MirrorR MirrorR_refl MirrorR_trans _
        (fun s a => scrape_page_R web cfg fuel s a) _ _).1 hinitM).2.2
    · exact ((scrape_page_R web cfg fuel _ _).1 hinitM).2.2

/-! ## Asset Fetcher: `GeneralScraper.download_resource`
(general_scraper.py 118-165)

The server's behaviour per URL is abstracted as `DlOutcome`: `ok` is a 200
response, `httpErr` a non-2xx response, and `exc` a raised
timeout/transport/IO error (all caught by the `except` clause). The concrete
relative path a successful download is stored under — computed by
`url_to_filename` / `get_file_extension` / the category branches (lines
45-151), which embed an md5 hash of the URL — is abstracted as the
function parameter `pathFor`, a pure function of the URL; the claims under
study do not depend on its value. -/

/-- Outcome of one HTTP GET in the asset-fetcher model. -/
inductive DlOutcome where
  | ok
  | httpErr
  | exc
deriving DecidableEq

/-- Network / filesystem events recorded by the asset-fetcher model. -/
inductive DlEv where
  | fetch (url : String)
  | write (path : String)
deriving DecidableEq

/-- The `self.downloaded_files` cache plus the event trace of one job. -/
structure DlState where
  downloaded_files : List (String × String)
  events : List DlEv

/-- Association-list lookup (Python `url in dict` / `dict[url]`). -/
def lookupDl : List (String × String) → String → Option String
  | [], _ => none
  | (k, v) :: rest, u => if k = u then some v else lookupDl rest u

/-- String-level startswith (Python `url.startswith(p)`). -/
def strStarts (p s : String) : Bool := isPre p.data s.data

/-- Embedding of `GeneralScraper.download_resource`: cached URLs return their
stored relative path with no request; `data:` URLs are returned verbatim; a
non-200 response or a raised error returns the original URL un-cached; a 200
response writes the file, caches `pathFor url` and returns it. -/
def download_resource (web : String → DlOutcome) (pathFor : String → String)
    (st : DlState) (url : String) : String × DlState :=
  match lookupDl st.downloaded_files url with
  | some p => (p, st)
  | none =>
    if strStarts "data:" url then (url, st)
    else
      let st1 : DlState := { st with events := st.events ++ [DlEv.fetch url] }
      match web url with
      | DlOutcome.httpErr => (url, st1)
      | DlOutcome.exc => (url, st1)
      | DlOutcome.ok =>
        (pathFor url,
         { st1 with
            events := st1.events ++ [DlEv.write (pathFor url)],
            downloaded_files := st1.downloaded_files ++ [(url, pathFor url)] })

/-- A sequence of asset references processed through one job's
`download_resource`, returning each call's result. -/
def processRefs (web : String → DlOutcome) (pathFor : String → String) :
    DlState → List String → List String × DlState
  | st, [] => ([], st)
  | st, u :: us =>
    let r := download_resource web pathFor st u
    let rest := processRefs web pathFor r.2 us
    (r.1 :: rest.1, rest.2)

/-- Number of fetch events for a given URL in a trace. -/
def fetchCount (evs : List DlEv) (u : String) : Nat :=
  (evs.filter (fun e => e = DlEv.fetch u)).length

theorem lookupDl_mem : ∀ {l : List (String × String)} {u p : String},
    lookupDl l u = some p → (u, p) ∈ l := by
  intro l
  induction l with
  | nil => intro u p h; simp [lookupDl] at h
  | cons e rest ih =>
    intro u p h
    rw [show lookupDl (e :: rest) u
        = (if e.1 = u then some e.2 else lookupDl rest u) from rfl] at h
    by_cases hk : e.1 = u
    · rw [if_pos hk] at h
      rw [Option.some_inj] at h
      have he : e = (u, p) := by rw [← hk, ← h]
      exact List.mem_cons.mpr (Or.inl he.symm)
    · rw [if_neg hk] at h
      exact List.mem_cons_of_mem _ (ih h)

theorem lookupDl_none_key : ∀ {l : List (String × String)} {u : String},
    lookupDl l u = none → ∀ e ∈ l, e.1 ≠ u := by
  intro l
  induction l with
  | nil => intro u _ e he; simp at he
  | cons f rest ih =>
    intro u h e he
    rw [show lookupDl (f :: rest) u
        = (if f.1 = u then some f.2 else lookupDl rest u) from rfl] at h
    by_cases hk : f.1 = u
    · rw [if_pos hk] at h; exact absurd h (by simp)
    · rw [if_neg hk] at h
      rcases List.mem_cons.mp he with rfl | he
      · exact hk
      · exact ih h e he

theorem lookupDl_append_none : ∀ {l : List (String × String)} {u : String}
    (kp : String × String), lookupDl l u = none →
    lookupDl (l ++ [kp]) u = if kp.1 = u then some kp.2 else none := by
  intro l
  induction l with
  | nil => intro u kp _; rfl
  | cons f rest ih =>
    intro u kp h
    rw [show lookupDl (f :: rest) u
        = (if f.1 = u then some f.2 else lookupDl rest u) from rfl] at h
    rw [show lookupDl ((f :: rest) ++ [kp]) u
        = (if f.1 = u then some f.2 else lookupDl (rest ++ [kp]) u) from rfl]
    by_cases hk : f.1 = u
    · rw [if_pos hk] at h; exact absurd h (by simp)
    · rw [if_neg hk] at h
      rw [if_neg hk, ih kp h]

theorem lookupDl_append_some : ∀ {l : List (String × String)} {u p : String}
    (kp : String × String), lookupDl l u = some p →
    lookupDl (l ++ [kp]) u = some p := by
  intro l
  induction l with
  | nil => intro u p kp h; simp [lookupDl] at h
  | cons f rest ih =>
    intro u p kp h
    rw [show lookupDl (f :: rest) u
        = (if f.1 = u then some f.2 else lookupDl rest u) from rfl] at h
    rw [show lookupDl ((f :: rest) ++ [kp]) u
        = (if f.1 = u then some f.2 else lookupDl (rest ++ [kp]) u) from rfl]
    by_cases hk : f.1 = u
    · rw [if_pos hk] at h ⊢; exact h
    · rw [if_neg hk] at h ⊢; exact ih kp h

theorem fetchCount_append (evs l2 : List DlEv) (u : String) :
    fetchCount (evs ++ l2) u = fetchCount evs u + fetchCount l2 u := by
  unfold fetchCount
  rw [List.filter_append, List.length_append]

/-- The URL-independent cache invariant: keys are unique and every cache
entry stores exactly the path computed for its URL. -/
def DlCacheInv (pathFor : String → String) (st : DlState) : Prop :=
  ((st.downloaded_files.map Prod.fst).Nodup)
  ∧ (∀ e ∈ st.downloaded_files, e.2 = pathFor e.1)

/-- The per-URL fetch-count invariant for a URL `u` the server serves
successfully. -/
def DlCountInv (u : String) (st : DlState) : Prop :=
  (lookupDl st.downloaded_files u = none → fetchCount st.events u = 0)
  ∧ fetchCount st.events u ≤ 1

theorem dl_step_cache (web : String → DlOutcome) (pathFor : String → String)
    (st : DlState) (v : String) (h : DlCacheInv pathFor st) :
    DlCacheInv pathFor (download_resource web pathFor st v).2 := by
  unfold download_resource
  cases hl : lookupDl st.downloaded_files v with
  | some p => exact h
  | none =>
    by_cases hd : strStarts "data:" v = true
    · rw [if_pos hd]; exact h
    · rw [if_neg hd]
      cases web v with
      | httpErr => exact h
      | exc => exact h
      | ok =>
        constructor
        · rw [List.map_append]
          apply nodup_snoc h.1
          intro hm
          rcases List.mem_map.mp hm with ⟨e, he, hee⟩
          exact lookupDl_none_key hl e he hee
        · intro e he
          rcases List.mem_append.mp he with he | he
          · exact h.2 e he
          · rw [List.mem_singleton.mp he]

theorem dl_step_count (web : String → DlOutcome) (pathFor : String → String)
    (u : String) (hok : web u = DlOutcome.ok)
    (st : DlState) (v : String) (hc : DlCacheInv pathFor st)
    (h : DlCountInv u st) :
    DlCountInv u (download_resource web pathFor st v).2
    ∧ (v = u → strStarts "data:" u = false →
        (download_resource web pathFor st v).1 = pathFor u) := by
  cases hl : lookupDl st.downloaded_files v with
  | some p =>
    have heq : download_resource web pathFor st v = (p, st) := by
      unfold download_resource
      rw [hl]
    rw [heq]
    refine ⟨h, ?_⟩
    intro hvu _
    subst hvu
    exact hc.2 _ (lookupDl_mem hl)
  | none =>
    by_cases hd : strStarts "data:" v = true
    · have heq : download_resource web pathFor st v = (v, st) := by
        unfold download_resource
        rw [hl, if_pos hd]
      rw [heq]
      refine ⟨h, ?_⟩
      intro hvu hdu
      subst hvu
      rw [hd] at hdu
      exact absurd hdu (by simp)
    · by_cases hvu : v = u
      · subst hvu
        have heq : download_resource web pathFor st v
            = (pathFor v,
               { downloaded_files := st.downloaded_files ++ [(v, pathFor v)],
                 events := (st.events ++ [DlEv.fetch v]) ++ [DlEv.write (pathFor v)] }) := by
          unfold download_resource
          rw [hl, if_neg hd, hok]
        rw [heq]
        have hcnt0 : fetchCount st.events v = 0 := h.1 hl
        have hone : fetchCount [DlEv.fetch v] v = 1 := by simp [fetchCount]
        have hz2 : fetchCount [DlEv.write (pathFor v)] v = 0 := by
          simp [fetchCount]
        refine ⟨⟨?_, ?_⟩, fun _ _ => rfl⟩
        · intro hlk
          rw [lookupDl_append_none _ hl] at hlk
          simp at hlk
        · rw [fetchCount_append, fetchCount_append, hcnt0, hone, hz2]
      · have hz : fetchCount [DlEv.fetch v] u = 0 := by
          simp [fetchCount, DlEv.fetch.injEq, hvu]
        have hle := h.2
        cases hw : web v with
        | httpErr =>
          have heq : download_resource web pathFor st v
              = (v, { st with events := st.events ++ [DlEv.fetch v] }) := by
            unfold download_resource
            rw [hl, if_neg hd, hw]
          rw [heq]
          refine ⟨⟨?_, ?_⟩, fun h0 => absurd h0 hvu⟩
          · intro hlk
            rw [fetchCount_append, h.1 hlk, hz]
          · rw [fetchCount_append, hz]
            omega
        | exc =>
          have heq : download_resource web pathFor st v
              = (v, { st with events := st.events ++ [DlEv.fetch v] }) := by
            unfold download_resource
            rw [hl, if_neg hd, hw]
          rw [heq]
          refine ⟨⟨?_, ?_⟩, fun h0 => absurd h0 hvu⟩
          · intro hlk
            rw [fetchCount_append, h.1 hlk, hz]
          · rw [fetchCount_append, hz]
            omega
        | ok =>
          have heq : download_resource web pathFor st v
              = (pathFor v,
                 { downloaded_files := st.downloaded_files ++ [(v, pathFor v)],
                   events := (st.events ++ [DlEv.fetch v]) ++ [DlEv.write (pathFor v)] }) := by
            unfold download_resource
            rw [hl, if_neg hd, hw]
          rw [heq]
          have hz2 : fetchCount [DlEv.write (pathFor v)] u = 0 := by
            simp [fetchCount]
          refine ⟨⟨?_, ?_⟩, fun h0 => absurd h0 hvu⟩
          · intro hlk
            have hlk0 : lookupDl st.downloaded_files u = none := by
              cases hcase : lookupDl st.downloaded_files u with
              | none => rfl
              | some p =>
                rw [lookupDl_append_some _ hcase] at hlk
                exact absurd hlk (by simp)
            rw [fetchCount_append, fetchCount_append, h.1 hlk0, hz, hz2]
          · rw [fetchCount_append, fetchCount_append, hz, hz2]
            omega

theorem processRefs_cache (web : String → DlOutcome) (pathFor : String → String) :
    ∀ (refs : List String) (st : DlState), DlCacheInv pathFor st →
      DlCacheInv pathFor (processRefs web pathFor st refs).2 := by
  intro refs
  induction refs with
  | nil => intro st h; exact h
  | cons v vs ih =>
    intro st h
    exact ih _ (dl_step_cache web pathFor st v h)

theorem processRefs_count (web : String → DlOutcome) (pathFor : String → String)
    (u : String) (hok : web u = DlOutcome.ok) :
    ∀ (refs : List String) (st : DlState), DlCacheInv pathFor st →
      DlCountInv u st →
      DlCountInv u (processRefs web pathFor st refs).2
      ∧ (∀ pr ∈ refs.zip (processRefs web pathFor st refs).1,
          pr.1 = u → strStarts "data:" u = false → pr.2 = pathFor u) := by
  intro refs
  induction refs with
  | nil =>
    intro st _ h
    exact ⟨h, by intro pr hpr; simp at hpr⟩
  | cons v vs ih =>
    intro st hc h
    have hstep := dl_step_count web pathFor u hok st v hc h
    have hcstep := dl_step_cache web pathFor st v hc
    obtain ⟨hrec, hres⟩ := ih (download_resource web pathFor st v).2 hcstep hstep.1
    refine ⟨hrec, ?_⟩
    intro pr hpr hpru hdata
    rw [show processRefs web pathFor st (v :: vs)
        = ((download_resource web pathFor st v).1
            :: (processRefs web pathFor (download_resource web pathFor st v).2 vs).1,
           (processRefs web pathFor (download_resource web pathFor st v).2 vs).2)
      from rfl] at hpr
    rcases List.mem_cons.mp hpr with rfl | hpr
    · exact hstep.2 hpru hdata
    · exact hres pr hpr hpru hdata

/-- C7 as stated is false: a repeatedly-referenced asset whose download fails
is fetched once per reference — failed downloads are not cached, so the
second reference to the same absolute URL triggers a second network request
(and the asset is never stored at all, not stored exactly once). -/
theorem C7_counterexample :
    fetchCount ((processRefs (fun _ => DlOutcome.httpErr)
        (fun _ => "images/x.png") ⟨[], []⟩
        ["https://site.example/a.png", "https://site.example/a.png"]).2.events)
      "https://site.example/a.png" = 2 := by decide

/-- C7 (amended): asset deduplication by absolute URL holds for assets the
server serves successfully — the cache keys never repeat, every cache entry
stores the path computed for its URL, a successfully-served (non-`data:`)
asset URL is fetched at most once per job however many references occur, and
every reference to it resolves to the same stored relative path. -/
theorem C7_dedup_by_url :
    (∀ (web : String → DlOutcome) (pathFor : String → String)
        (refs : List String),
        (((processRefs web pathFor ⟨[], []⟩ refs).2.downloaded_files).map
          Prod.fst).Nodup)
    ∧ (∀ (web : String → DlOutcome) (pathFor : String → String)
        (refs : List String) (e : String × String),
        e ∈ (processRefs web pathFor ⟨[], []⟩ refs).2.downloaded_files →
        e.2 = pathFor e.1)
    ∧ (∀ (web : String → DlOutcome) (pathFor : String → String)
        (refs : List String) (u : String),
        web u = DlOutcome.ok →
        fetchCount (processRefs web pathFor ⟨[], []⟩ refs).2.events u ≤ 1)
    ∧ (∀ (web : String → DlOutcome) (pathFor : String → String)
        (refs : List String) (u : String) (pr : String × String),
        web u = DlOutcome.ok → strStarts "data:" u = false →
        pr ∈ refs.zip (processRefs web pathFor ⟨[], []⟩ refs).1 →
        pr.1 = u → pr.2 = pathFor u) := by
  have hinitC : ∀ pathFor : String → String, DlCacheInv pathFor ⟨[], []⟩ :=
    fun _ => ⟨List.nodup_nil, by simp⟩
  have hinitN : ∀ u : String, DlCountInv u (⟨[], []⟩ : DlState) :=
    fun u => ⟨fun _ => rfl, by simp [fetchCount]⟩
  refine ⟨?_, ?_, ?_, ?_⟩
  · intro web pathFor refs
    exact (processRefs_cache web pathFor refs _ (hinitC pathFor)).1
  · intro web pathFor refs e he
    exact (processRefs_cache web pathFor refs _ (hinitC pathFor)).2 e he
  · intro web pathFor refs u hok
    exact (processRefs_count web pathFor u hok refs _ (hinitC pathFor)
      (hinitN u)).1.2
  · intro web pathFor refs u pr hok hdata hpr hpru
    exact (processRefs_count web pathFor u hok refs _ (hinitC pathFor)
      (hinitN u)).2 pr hpr hpru hdata

/-- Witness for C7 (amended): a successfully-served asset referenced twice is
fetched at most once and both references resolve to the stored path. -/
theorem C7_dedup_by_url_witness :
    ((fun _ : String => DlOutcome.ok) "https://site.example/a.png" = DlOutcome.ok
      ∧ fetchCount (processRefs (fun _ => DlOutcome.ok)
          (fun _ => "images/x.png") ⟨[], []⟩
          ["https://site.example/a.png", "https://site.example/a.png"]).2.events
          "https://site.example/a.png" ≤ 1)
    ∧ (("https://site.example/a.png", "images/x.png")
          ∈ ["https://site.example/a.png", "https://site.example/a.png"].zip
            (processRefs (fun _ => DlOutcome.ok) (fun _ => "images/x.png")
              ⟨[], []⟩
              ["https://site.example/a.png", "https://site.example/a.png"]).1
      ∧ ("https://site.example/a.png", "images/x.png").2
          = (fun _ : String => "images/x.png") "https://site.example/a.png") :=
  ⟨⟨rfl, C7_dedup_by_url.2.2.1 (fun _ => DlOutcome.ok)
      (fun _ => "images/x.png")
      ["https://site.example/a.png", "https://site.example/a.png"]
      "https://site.example/a.png" rfl⟩,
   ⟨by decide, C7_dedup_by_url.2.2.2 (fun _ => DlOutcome.ok)
      (fun _ => "images/x.png")
      ["https://site.example/a.png", "https://site.example/a.png"]
      "https://site.example/a.png"
      ("https://site.example/a.png", "images/x.png")
      rfl (by decide) (by decide) rfl⟩⟩

/-- C8: a failed asset fetch (non-2xx, timeout or transport error) fails
soft — `download_resource` returns the original asset URL unchanged (the
reference stays unresolved), writes nothing, caches nothing, and records
exactly the one attempted request; the caller keeps going because no
exception escapes (the model is a total function). -/
theorem C8_soft_fail :
    ∀ (web : String → DlOutcome) (pathFor : String → String)
      (st : DlState) (url : String),
      lookupDl st.downloaded_files url = none →
      strStarts "data:" url = false →
      (web url = DlOutcome.httpErr ∨ web url = DlOutcome.exc) →
      (download_resource web pathFor st url).1 = url
      ∧ (download_resource web pathFor st url).2.events
          = st.events ++ [DlEv.fetch url]
      ∧ (download_resource web pathFor st url).2.downloaded_files
          = st.downloaded_files := by
  intro web pathFor st url hcache hdata hfail
  have heq : download_resource web pathFor st url
      = (url, { st with events := st.events ++ [DlEv.fetch url] }) := by
    unfold download_resource
    rcases hfail with h | h <;>
      rw [hcache, if_neg (by rw [hdata]; simp), h]
  rw [heq]
  exact ⟨rfl, rfl, rfl⟩

/-- Witness for C8: the soft-fail conclusion at a concrete 404 asset. -/
theorem C8_soft_fail_witness :
    (download_resource (fun _ => DlOutcome.httpErr) (fun _ => "images/a.png")
        ⟨[], []⟩ "https://site.example/a.png").1 = "https://site.example/a.png"
    ∧ (download_resource (fun _ => DlOutcome.httpErr) (fun _ => "images/a.png")
        ⟨[], []⟩ "https://site.example/a.png").2.events
        = ([] : List DlEv) ++ [DlEv.fetch "https://site.example/a.png"]
    ∧ (download_resource (fun _ => DlOutcome.httpErr) (fun _ => "images/a.png")
        ⟨[], []⟩ "https://site.example/a.png").2.downloaded_files = [] :=
  C8_soft_fail _ _ _ _ rfl (by decide) (Or.inl rfl)

/-! ## `GeneralScraper.scrape_site` (general_scraper.py 345-409)

Effects are recorded as an event trace. The page fetch outcome per URL is
abstracted as `web : String → Bool` (`true` = 200); `GeneralScraper.scrape_page`
is modelled down to its page fetch and HTML write (its per-asset
`download_resource` calls are the asset-fetcher model above); the BFS of
`GeneralScraper.discover_pages` is abstracted as the `discovered` parameter
plus a `discovery` event, since it runs only when no selection is given. -/

/-- Events of a `scrape_site` run: output-directory creation, the discovery
crawl, one page fetch attempt per page, one HTML write per success, and the
final zip. -/
inductive GEv where
  | mkdirOut
  | discovery
  | fetchPage (url : String)
  | writePage (name : String)
  | zipArchive
deriving DecidableEq

/-- The structured result dict (`success` and `message` keys). -/
structure GSResult where
  success : Bool
  message : String
deriving DecidableEq

/-- Embedding of `GeneralScraper.scrape_page` at the page level: fetch the
page; on a 200, process it and write `page_name.html`; otherwise raise — the
caller catches and skips, so a failure contributes no written file. -/
def gs_scrape_page (web : String → Bool) (url pageName : String) :
    Option String × List GEv :=
  if web url then
    (some (pageName ++ ".html"),
     [GEv.fetchPage url, GEv.writePage (pageName ++ ".html")])
  else (none, [GEv.fetchPage url])

/-- The `for i, page in enumerate(pages_to_scrape)` loop of `scrape_site`,
with its `page_name` computation (`"index"` for the first page, `page_{i+1}`
when there are several pages). -/
def gs_loop (web : String → Bool) (total : Nat) :
    List (Nat × String) → List String × List GEv
  | [] => ([], [])
  | (i, u) :: rest =>
    let pageName :=
      if i = 0 then "index"
      else if 1 < total then "page_" ++ toString (i + 1) else "index"
    let r := gs_scrape_page web u pageName
    let rest2 := gs_loop web total rest
    (match r.1 with
     | some f => f :: rest2.1
     | none => rest2.1,
     r.2 ++ rest2.2)

/-- Embedding of `GeneralScraper.scrape_site`: the output directory is
created first; single-page mode scrapes the start URL; an explicit selection
longer than 25 returns the structured failure before anything else; an
explicit selection of at most 25 is scraped exactly; without a selection the
discovery crawl runs and its first 25 pages are scraped; the tree is zipped
at the end. -/
def gs_scrape_site (web : String → Bool) (discovered : List String)
    (url : String) (mode : String) (selected : Option (List String)) :
    GSResult × List GEv :=
  let ev0 : List GEv := [GEv.mkdirOut]
  if mode = "single_page" then
    let r := gs_loop web 1 [url].enum
    (⟨true, "Successfully scraped " ++ toString r.1.length ++ " page(s)"⟩,
     ev0 ++ r.2 ++ [GEv.zipArchive])
  else if selTruthy selected = true then
    let sel := selected.getD []
    if 25 < sel.length then
      (⟨false, "Maximum 25 pages allowed for multi-page scraping"⟩, ev0)
    else
      let r := gs_loop web sel.length sel.enum
      (⟨true, "Successfully scraped " ++ toString r.1.length ++ " page(s)"⟩,
       ev0 ++ r.2 ++ [GEv.zipArchive])
  else
    let pages := discovered.take 25
    let r := gs_loop web pages.length pages.enum
    (⟨true, "Successfully scraped " ++ toString r.1.length ++ " page(s)"⟩,
     ev0 ++ [GEv.discovery] ++ r.2 ++ [GEv.zipArchive])

/-- Projection of a trace to the page fetch attempts it contains. -/
def pageFetch : GEv → Option String
  | GEv.fetchPage u => some u
  | _ => none

theorem gs_loop_fetches (web : String → Bool) (total : Nat) :
    ∀ l : List (Nat × String),
      (gs_loop web total l).2.filterMap pageFetch = l.map Prod.snd := by
  intro l
  induction l with
  | nil => rfl
  | cons e rest ih =>
    cases e with
    | mk i u =>
      show ((gs_scrape_page web u _).2
          ++ (gs_loop web total rest).2).filterMap pageFetch = u :: rest.map Prod.snd
      rw [List.filterMap_append, ih]
      unfold gs_scrape_page
      by_cases hw : web u = true
      · rw [if_pos hw]
        rfl
      · rw [if_neg hw]
        rfl

theorem gs_loop_no_discovery (web : String → Bool) (total : Nat) :
    ∀ l : List (Nat × String), GEv.discovery ∉ (gs_loop web total l).2 := by
  intro l
  induction l with
  | nil => simp [gs_loop]
  | cons e rest ih =>
    cases e with
    | mk i u =>
      intro hm
      have hm2 : GEv.discovery ∈ (gs_scrape_page web u
          (if i = 0 then "index"
           else if 1 < total then "page_" ++ toString (i + 1) else "index")).2
          ++ (gs_loop web total rest).2 := hm
      rcases List.mem_append.mp hm2 with hm3 | hm3
      · unfold gs_scrape_page at hm3
        by_cases hw : web u = true
        · rw [if_pos hw] at hm3
          simp at hm3
        · rw [if_neg hw] at hm3
          simp at hm3
      · exact ih hm3

/-- A concrete explicit selection of 26 distinct pages. -/
def sel26 : List String :=
  ["u01", "u02", "u03", "u04", "u05", "u06", "u07", "u08", "u09", "u10",
   "u11", "u12", "u13", "u14", "u15", "u16", "u17", "u18", "u19", "u20",
   "u21", "u22", "u23", "u24", "u25", "u26"]

/-- C5 as stated is false: only the general-site scraper enforces the
25-page cap. A platform-spider multi-page job (`BaseSiteSpider.scrape`) with
an explicit selection of 26 pages is not rejected — it completes 26 page
fetches and writes 26 files. -/
theorem C5_counterexample :
    (scrape (fun _ => some []) ⟨"https://s.example/", "multi_page", some sel26⟩
        30).fetchLog.length = 26
    ∧ (scrape (fun _ => some []) ⟨"https://s.example/", "multi_page", some sel26⟩
        30).written.length = 26 := by decide

/-- C5 (amended): the 25-page cap on explicit selections holds on the
`GeneralScraper.scrape_site` path only — there a multi-page job selecting
more than 25 pages returns the structured failure
`Maximum 25 pages allowed for multi-page scraping` with a trace containing
only the output-directory creation (no fetch, no file write), and a
non-empty selection of at most 25 pages fetches exactly the given pages with
no discovery crawl. Platform-spider jobs enforce no such cap
(`C5_counterexample`). -/
theorem C5_selection_cap :
    (∀ (web : String → Bool) (discovered : List String) (url : String)
        (sel : List String), 25 < sel.length →
        gs_scrape_site web discovered url "multi_page" (some sel)
          = (⟨false, "Maximum 25 pages allowed for multi-page scraping"⟩,
             [GEv.mkdirOut]))
    ∧ (∀ (web : String → Bool) (discovered : List String) (url : String)
        (sel : List String), sel ≠ [] → sel.length ≤ 25 →
        ((gs_scrape_site web discovered url "multi_page"
            (some sel)).2.filterMap pageFetch) = sel
        ∧ GEv.discovery
            ∉ (gs_scrape_site web discovered url "multi_page" (some sel)).2) := by
  constructor
  · intro web discovered url sel hlen
    have hne : sel ≠ [] := by
      intro h0
      rw [h0] at hlen
      simp at hlen
    have htr : selTruthy (some sel) = true := by
      unfold selTruthy
      cases sel with
      | nil => exact absurd rfl hne
      | cons a as => rfl
    unfold gs_scrape_site
    rw [if_neg (by decide : ¬("multi_page" = "single_page")), if_pos htr,
        if_pos (by exact hlen : 25 < (Option.getD (some sel) []).length)]
  · intro web discovered url sel hne hlen
    have htr : selTruthy (some sel) = true := by
      unfold selTruthy
      cases sel with
      | nil => exact absurd rfl hne
      | cons a as => rfl
    have hno : ¬(25 < (Option.getD (some sel) []).length) := by
      simp only [Option.getD]
      omega
    constructor
    · simp only [gs_scrape_site]
      rw [if_neg (by decide : ¬("multi_page" = "single_page")), if_pos htr,
          if_neg hno]
      rw [List.filterMap_append, List.filterMap_append, gs_loop_fetches,
          List.enum_map_snd]
      simp [pageFetch]
    · simp only [gs_scrape_site]
      rw [if_neg (by decide : ¬("multi_page" = "single_page")), if_pos htr,
          if_neg hno]
      intro hm
      rcases List.mem_append.mp hm with hm3 | hm3
      · rcases List.mem_append.mp hm3 with hm4 | hm4
        · simp at hm4
        · exact gs_loop_no_discovery web _ _ hm4
      · simp at hm3

/-- Witness for C5 (amended): the conjuncts of `C5_selection_cap` discharged
on a 26-page and a 2-page selection. -/
theorem C5_selection_cap_witness :
    (25 < sel26.length
      ∧ gs_scrape_site (fun _ => true) [] "https://s.example/" "multi_page"
          (some sel26)
        = (⟨false, "Maximum 25 pages allowed for multi-page scraping"⟩,
           [GEv.mkdirOut]))
    ∧ ((["p1", "p2"] : List String) ≠ [] ∧ (["p1", "p2"] : List String).length ≤ 25
      ∧ ((gs_scrape_site (fun _ => true) [] "https://s.example/" "multi_page"
            (some ["p1", "p2"])).2.filterMap pageFetch) = ["p1", "p2"]) :=
  ⟨⟨by decide, C5_selection_cap.1 (fun _ => true) [] "https://s.example/" sel26
      (by decide)⟩,
   ⟨by decide, by decide,
    (C5_selection_cap.2 (fun _ => true) [] "https://s.example/" ["p1", "p2"]
      (by decide) (by decide)).1⟩⟩

/-! ## Path Mapper: `BaseSiteSpider.is_internal_link` (base_spider.py 283-302) -/

/-- The fixed denylist of well-known third-party domains. -/
def external_domains : List String :=
  ["facebook.com", "twitter.com", "instagram.com", "linkedin.com",
   "youtube.com", "google.com", "maps.google.com"]

/-- Embedding of `BaseSiteSpider.is_internal_link`: empty links and links
starting with `mailto:`, `tel:`, `#` or `javascript:` are external; links
starting with `http` compare netlocs and are external when any denylist
domain occurs as a substring of the link's netloc; every other link —
including protocol-relative `//host/...` links — is returned internal
unconditionally. (`None` links, also falsy in Python, have no counterpart in
the string model; exceptions cannot arise in the model's total parser.) -/
def is_internal_link (link current_url : String) : Bool :=
  if link = "" then false
  else if strStarts "mailto:" link || strStarts "tel:" link
      || strStarts "#" link || strStarts "javascript:" link then false
  else if strStarts "http" link then
    if external_domains.any
        (fun d => subList d.data (urlNetlocCore link.data)) then false
    else decide (urlNetlocCore current_url.data = urlNetlocCore link.data)
  else true

theorem isPre_exists {p l : List Char} (h : isPre p l = true) :
    ∃ t, l = p ++ t := by
  induction p generalizing l with
  | nil => exact ⟨l, rfl⟩
  | cons a as ih =>
    cases l with
    | nil => simp [isPre] at h
    | cons b bs =>
      simp only [isPre, Bool.and_eq_true, beq_iff_eq] at h
      obtain ⟨t, ht⟩ := ih h.2
      exact ⟨t, by rw [List.cons_append, ← ht, h.1]⟩


theorem strStarts_false_of_ne_head {pre link : String} {a b : Char}
    {pr lr : List Char} (hpre : pre.data = a :: pr)
    (hlink : link.data = b :: lr) (hne : a ≠ b) :
    strStarts pre link = false := by
  unfold strStarts
  rw [hpre, hlink]
  simp [isPre, hne]

/-- C6 as stated is false: a protocol-relative link that resolves into the
denylist (here `//facebook.com/share`) is still classified internal, because
the denylist is only consulted for links starting with `http`. -/
theorem C6_counterexample :
    is_internal_link "//facebook.com/share" "https://example.com/page" = true
    ∧ subList "facebook.com".data
        (urlNetlocCore ("//facebook.com/share" : String).data) = true := by
  decide

/-- C6 (amended): `is_internal_link` returns false for every link starting
with `mailto:`, `tel:`, `#` or `javascript:`; for links starting with `http`
it returns true exactly when no denylist domain occurs in the link's netloc
and the link's netloc equals the current page's netloc; and every other
non-empty link — relative or protocol-relative — is classified internal
unconditionally, without any denylist check. -/
theorem C6_is_internal_link :
    (∀ link current_url : String,
        (strStarts "mailto:" link = true ∨ strStarts "tel:" link = true
          ∨ strStarts "#" link = true ∨ strStarts "javascript:" link = true) →
        is_internal_link link current_url = false)
    ∧ (∀ link current_url : String, strStarts "http" link = true →
        (is_internal_link link current_url = true ↔
          (external_domains.any
              (fun d => subList d.data (urlNetlocCore link.data)) = false
            ∧ urlNetlocCore current_url.data = urlNetlocCore link.data)))
    ∧ (∀ link current_url : String, link ≠ "" →
        strStarts "mailto:" link = false → strStarts "tel:" link = false →
        strStarts "#" link = false → strStarts "javascript:" link = false →
        strStarts "http" link = false →
        is_internal_link link current_url = true) := by
  refine ⟨?_, ?_, ?_⟩
  · intro link current_url h
    have hne : ¬(link = "") := by
      intro h0
      subst h0
      rcases h with h | h | h | h <;> simp [strStarts, isPre] at h
    have hsp : (strStarts "mailto:" link || strStarts "tel:" link
        || strStarts "#" link || strStarts "javascript:" link) = true := by
      rcases h with h | h | h | h <;> simp [h]
    unfold is_internal_link
    rw [if_neg hne, if_pos hsp]
  · intro link current_url hhttp
    have hne : ¬(link = "") := by
      intro h0
      subst h0
      simp [strStarts, isPre] at hhttp
    obtain ⟨t, ht⟩ := isPre_exists hhttp
    have hlink : link.data = 'h' :: ("ttp".data ++ t) := by
      rw [ht]
      rfl
    have hm1 : strStarts "mailto:" link = false :=
      strStarts_false_of_ne_head rfl hlink (by decide)
    have hm2 : strStarts "tel:" link = false :=
      strStarts_false_of_ne_head rfl hlink (by decide)
    have hm3 : strStarts "#" link = false :=
      strStarts_false_of_ne_head rfl hlink (by decide)
    have hm4 : strStarts "javascript:" link = false :=
      strStarts_false_of_ne_head rfl hlink (by decide)
    have hsp : (strStarts "mailto:" link || strStarts "tel:" link
        || strStarts "#" link || strStarts "javascript:" link) = false := by
      rw [hm1, hm2, hm3, hm4]
      rfl
    unfold is_internal_link
    rw [if_neg hne, if_neg (by rw [hsp]; simp), if_pos hhttp]
    by_cases hd : external_domains.any
        (fun d => subList d.data (urlNetlocCore link.data)) = true
    · rw [if_pos hd]
      constructor
      · intro h0
        exact absurd h0 (by simp)
      · intro h0
        rw [h0.1] at hd
        exact absurd hd (by simp)
    · rw [if_neg hd]
      simp only [decide_eq_true_eq]
      constructor
      · intro h0
        exact ⟨Bool.eq_false_iff.mpr hd, h0⟩
      · intro h0
        exact h0.2
  · intro link current_url hne h1 h2 h3 h4 h5
    unfold is_internal_link
    rw [if_neg (by exact hne), if_neg (by rw [h1, h2, h3, h4]; simp),
        if_neg (by rw [h5]; simp)]

/-- Witness for C6 (amended): the three conjuncts discharged at concrete
links. -/
theorem C6_is_internal_link_witness :
    (strStarts "mailto:" "mailto:a@b.example" = true
      ∧ is_internal_link "mailto:a@b.example" "https://example.com/" = false)
    ∧ (strStarts "http" "https://example.com/about" = true
      ∧ (is_internal_link "https://example.com/about" "https://example.com/"
          = true ↔
          (external_domains.any (fun d => subList d.data
              (urlNetlocCore ("https://example.com/about" : String).data))
            = false
          ∧ urlNetlocCore ("https://example.com/" : String).data
              = urlNetlocCore ("https://example.com/about" : String).data)))
    ∧ (("about.html" : String) ≠ ""
      ∧ is_internal_link "about.html" "https://example.com/" = true) :=
  ⟨⟨by decide, C6_is_internal_link.1 "mailto:a@b.example" "https://example.com/"
      (Or.inl (by decide))⟩,
   ⟨by decide, C6_is_internal_link.2.1 "https://example.com/about"
      "https://example.com/" (by decide)⟩,
   ⟨by decide, C6_is_internal_link.2.2 "about.html" "https://example.com/"
      (by decide) (by decide) (by decide) (by decide) (by decide) (by decide)⟩⟩

/-! ## Platform Stripper: `FramerSpider.remove_platform_badge`
(framer_spider.py 8-60)

The function works in two phases: a string phase that injects the badge-hiding
`<style>` block (lines 25-30, modelled by `framer_inject_css`), and a DOM
phase on the BeautifulSoup parse that decomposes badge elements (lines 32-58,
modelled by `framer_remove_badge_dom` on an explicit node tree; the HTML
parser and serializer themselves are not modelled). The source's three
removal loops run as three successive passes; iterating a stale `find_all`
list while decomposing is modelled as a recursive filter per pass, which
removes the same nodes. -/

/-- HTML DOM node (BeautifulSoup's element/text distinction). -/
inductive HNode where
  | textN (s : String)
  | elemN (tag : String) (attrs : List (String × String)) (children : List HNode)

mutual
/-- Document-order descendant text strings of a node. -/
def nodeTexts : HNode → List String
  | .textN s => [s]
  | .elemN _ _ cs => nodesTexts cs
/-- Document-order descendant text strings of a node list. -/
def nodesTexts : List HNode → List String
  | [] => []
  | n :: ns => nodeTexts n ++ nodesTexts ns
end

/-- Strip ASCII/Unicode whitespace from both ends (Python `str.strip()`). -/
def stripWsChars (l : List Char) : List Char :=
  ((l.dropWhile Char.isWhitespace).reverse.dropWhile Char.isWhitespace).reverse

/-- `element.get_text(strip=True)`: each descendant string stripped, then
concatenated. -/
def getTextStrip (n : HNode) : List Char :=
  ((nodeTexts n).map (fun s => stripWsChars s.data)).flatten

/-- `element.get_text()`: descendant strings concatenated. -/
def getTextRaw (n : HNode) : List Char :=
  ((nodeTexts n).map String.data).flatten

/-- HTML attribute lookup. -/
def getAttr (attrs : List (String × String)) (name : String) : Option String :=
  lookupDl attrs name

/-- BeautifulSoup's multi-valued `class` attribute: the whitespace-split
class list. -/
def classList (attrs : List (String × String)) : List String :=
  match getAttr attrs "class" with
  | none => []
  | some c => ((splitCh ' ' c.data).filter (fun s => s ≠ [])).map
      (fun l => (⟨l⟩ : String))

/-- Membership of a class in an element's class list. -/
def hasClass (attrs : List (String × String)) (c : String) : Bool :=
  decide (c ∈ classList attrs)

/-- First removal loop (framer_spider.py 34-45): `find_all('div', sel)` +
`decompose()` for the five selector dicts, combined into one predicate on
`div` elements. The dict `{'attrs': {'data-framer-name': 'Made with Framer'}}`
passes `attrs` as an attribute name to `find_all`; no HTML attribute equals a
dict, so that selector matches nothing and contributes `false`. -/
def framerPass1 : HNode → Bool
  | .textN _ => false
  | .elemN tag attrs _ =>
    tag = "div" &&
      (decide (getAttr attrs "id" = some "__framer-badge-container")
        || false
        || hasClass attrs "framer-badge"
        || hasClass attrs "edit-template"
        || hasClass attrs "template-badge")

/-- Second removal loop (framer_spider.py 47-51): `a`/`button`/`div`/`span`
elements whose stripped lower-cased text contains `edit template` and is
shorter than 50 characters. -/
def framerPass2 : HNode → Bool
  | .textN _ => false
  | .elemN tag attrs cs =>
    (tag = "a" || tag = "button" || tag = "div" || tag = "span")
      && subList "edit template".data
          (lowerChars (getTextStrip (.elemN tag attrs cs)))
      && decide ((getTextStrip (.elemN tag attrs cs)).length < 50)

/-- The promotional keywords of the third removal loop. -/
def framerKeywords : List String :=
  ["made", "framer", "built", "edit", "template", "free"]

/-- Third removal loop (framer_spider.py 53-58): anchors whose `href`
contains `framer.com` and whose lower-cased raw text contains one of the
promotional keywords. -/
def framerPass3 : HNode → Bool
  | .elemN "a" attrs cs =>
    (match getAttr attrs "href" with
     | some h => subList "framer.com".data h.data
     | none => false)
      && framerKeywords.any
          (fun k => subList k.data (lowerChars (getTextRaw (.elemN "a" attrs cs))))
  | _ => false

mutual
/-- Remove a node (with its subtree) when `p` holds, else keep it and filter
its children. -/
def stripNode (p : HNode → Bool) : HNode → Option HNode
  | .textN s => some (.textN s)
  | .elemN t a cs =>
    if p (.elemN t a cs) then none
    else some (.elemN t a (stripNodes p cs))
/-- `stripNode` mapped over a node list. -/
def stripNodes (p : HNode → Bool) : List HNode → List HNode
  | [] => []
  | n :: ns =>
    match stripNode p n with
    | none => stripNodes p ns
    | some m => m :: stripNodes p ns
end

/-- The DOM phase of `FramerSpider.remove_platform_badge`: the three removal
passes in source order. -/
def framer_remove_badge_dom (ns : List HNode) : List HNode :=
  stripNodes framerPass3 (stripNodes framerPass2 (stripNodes framerPass1 ns))

mutual
/-- Does `p` hold for the node or any of its descendants? -/
def containsSat (p : HNode → Bool) : HNode → Bool
  | .textN s => p (.textN s)
  | .elemN t a cs => p (.elemN t a cs) || anySat p cs
/-- Does `p` hold anywhere in a node list? -/
def anySat (p : HNode → Bool) : List HNode → Bool
  | [] => false
  | n :: ns => containsSat p n || anySat p ns
end

/-- The `css_to_inject` literal of framer_spider.py 9-23. -/
def framer_css : String :=
  "\n        <style>\n        #__framer-badge-container \x7b display: none !important; \x7d\n        [data-framer-name=\"Made with Framer\"] \x7b display: none !important; \x7d\n        .framer-badge \x7b display: none !important; \x7d\n        a[href*=\"framer.com\"][target=\"_blank\"] \x7b display: none !important; \x7d\n        /* Target the \"Edit template\" badge specifically */\n        a[href*=\"framer.com/templates\"] \x7b display: none !important; \x7d\n        [data-framer-name*=\"Edit template\"] \x7b display: none !important; \x7d\n        [class*=\"edit-template\"] \x7b display: none !important; \x7d\n        [class*=\"template-badge\"] \x7b display: none !important; \x7d\n        button:contains(\"Edit template\") \x7b display: none !important; \x7d\n        div:has(a[href*=\"templates\"]) \x7b display: none !important; \x7d\n        </style>\n        "

/-- The string phase of `FramerSpider.remove_platform_badge` (lines 25-30):
inject the CSS before every `</head>`, else after every `<body>`, else
prepend it to the raw document. -/
def framer_inject_css (html : String) : String :=
  if subList "</head>".data html.data then
    ⟨replaceAllCore "</head>".data (framer_css.data ++ "</head>".data) html.data⟩
  else if subList "<body>".data html.data then
    ⟨replaceAllCore "<body>".data ("<body>".data ++ framer_css.data) html.data⟩
  else framer_css ++ html

mutual
/-- Size measure for fuel-indexed induction over the nested node type. -/
def nsize : HNode → Nat
  | .textN _ => 1
  | .elemN _ _ cs => 1 + lsize cs
/-- Size measure for node lists. -/
def lsize : List HNode → Nat
  | [] => 0
  | n :: ns => nsize n + lsize ns
end

theorem nsize_pos (n : HNode) : 1 ≤ nsize n := by
  cases n with
  | textN s => exact Nat.le_refl 1
  | elemN t a cs => exact Nat.le_add_right 1 (lsize cs)

theorem strip_clean_aux (p : HNode → Bool) (htext : ∀ s, p (.textN s) = false)
    (hind : ∀ t a cs cs2, p (.elemN t a cs) = p (.elemN t a cs2)) :
    ∀ (k : Nat) (ns : List HNode), lsize ns < k →
      anySat p (stripNodes p ns) = false := by
  intro k
  induction k with
  | zero => intro ns h; omega
  | succ k ih =>
    intro ns h
    cases ns with
    | nil => rfl
    | cons n tail =>
      have hsz : nsize n + lsize tail < k + 1 := h
      have htail : anySat p (stripNodes p tail) = false := by
        apply ih
        have := nsize_pos n
        omega
      cases n with
      | textN s =>
        show (containsSat p (.textN s) || anySat p (stripNodes p tail)) = false
        rw [show containsSat p (.textN s) = p (.textN s) from rfl, htext s, htail]
        rfl
      | elemN t a cs =>
        by_cases hp : p (.elemN t a cs) = true
        · show anySat p (match stripNode p (.elemN t a cs) with
            | none => stripNodes p tail
            | some m => m :: stripNodes p tail) = false
          rw [show stripNode p (.elemN t a cs)
              = (if p (.elemN t a cs) then none
                 else some (.elemN t a (stripNodes p cs))) from rfl,
             if_pos hp]
          exact htail
        · have hpf : p (.elemN t a cs) = false := Bool.eq_false_iff.mpr hp
          have hcs : anySat p (stripNodes p cs) = false := by
            apply ih
            have hs2 : nsize (HNode.elemN t a cs) = 1 + lsize cs := rfl
            omega
          show anySat p (match stripNode p (.elemN t a cs) with
            | none => stripNodes p tail
            | some m => m :: stripNodes p tail) = false
          rw [show stripNode p (.elemN t a cs)
              = (if p (.elemN t a cs) then none
                 else some (.elemN t a (stripNodes p cs))) from rfl,
             if_neg hp]
          show (containsSat p (.elemN t a (stripNodes p cs))
              || anySat p (stripNodes p tail)) = false
          rw [show containsSat p (.elemN t a (stripNodes p cs))
              = (p (.elemN t a (stripNodes p cs))
                  || anySat p (stripNodes p cs)) from rfl,
             hind t a (stripNodes p cs) cs, hpf, hcs, htail]
          rfl

theorem strip_preserve_aux (p q : HNode → Bool)
    (hindq : ∀ t a cs cs2, q (.elemN t a cs) = q (.elemN t a cs2)) :
    ∀ (k : Nat) (ns : List HNode), lsize ns < k → anySat q ns = false →
      anySat q (stripNodes p ns) = false := by
  intro k
  induction k with
  | zero => intro ns h; omega
  | succ k ih =>
    intro ns h hq
    cases ns with
    | nil => rfl
    | cons n tail =>
      have hsz : nsize n + lsize tail < k + 1 := h
      have hq2 : containsSat q n = false ∧ anySat q tail = false := by
        have : (containsSat q n || anySat q tail) = false := hq
        exact Bool.or_eq_false_iff.mp this
      have htail : anySat q (stripNodes p tail) = false := by
        apply ih tail (by have := nsize_pos n; omega) hq2.2
      cases n with
      | textN s =>
        show (containsSat q (.textN s) || anySat q (stripNodes p tail)) = false
        rw [hq2.1, htail]
        rfl
      | elemN t a cs =>
        have hqel : (q (.elemN t a cs) || anySat q cs) = false := hq2.1
        have hqel2 := Bool.or_eq_false_iff.mp hqel
        show anySat q (match stripNode p (.elemN t a cs) with
          | none => stripNodes p tail
          | some m => m :: stripNodes p tail) = false
        rw [show stripNode p (.elemN t a cs)
            = (if p (.elemN t a cs) then none
               else some (.elemN t a (stripNodes p cs))) from rfl]
        by_cases hp : p (.elemN t a cs) = true
        · rw [if_pos hp]
          exact htail
        · rw [if_neg hp]
          show (containsSat q (.elemN t a (stripNodes p cs))
              || anySat q (stripNodes p tail)) = false
          rw [show containsSat q (.elemN t a (stripNodes p cs))
              = (q (.elemN t a (stripNodes p cs))
                  || anySat q (stripNodes p cs)) from rfl,
             hindq t a (stripNodes p cs) cs, hqel2.1,
             ih cs (by have hs2 : nsize (HNode.elemN t a cs) = 1 + lsize cs := rfl
                       omega) hqel2.2,
             htail]
          rfl

theorem strip_id_aux (p : HNode → Bool) :
    ∀ (k : Nat) (ns : List HNode), lsize ns < k → anySat p ns = false →
      stripNodes p ns = ns := by
  intro k
  induction k with
  | zero => intro ns h; omega
  | succ k ih =>
    intro ns h hp
    cases ns with
    | nil => rfl
    | cons n tail =>
      have hsz : nsize n + lsize tail < k + 1 := h
      have hp2 : containsSat p n = false ∧ anySat p tail = false :=
        Bool.or_eq_false_iff.mp hp
      have htail : stripNodes p tail = tail :=
        ih tail (by have := nsize_pos n; omega) hp2.2
      cases n with
      | textN s =>
        show HNode.textN s :: stripNodes p tail = HNode.textN s :: tail
        rw [htail]
      | elemN t a cs =>
        have hpel := Bool.or_eq_false_iff.mp
          (show (p (.elemN t a cs) || anySat p cs) = false from hp2.1)
        show (match stripNode p (.elemN t a cs) with
          | none => stripNodes p tail
          | some m => m :: stripNodes p tail) = HNode.elemN t a cs :: tail
        rw [show stripNode p (.elemN t a cs)
            = (if p (.elemN t a cs) then none
               else some (.elemN t a (stripNodes p cs))) from rfl,
           if_neg (by rw [hpel.1]; simp)]
        show HNode.elemN t a (stripNodes p cs) :: stripNodes p tail
          = HNode.elemN t a cs :: tail
        rw [htail,
            ih cs (by have hs2 : nsize (HNode.elemN t a cs) = 1 + lsize cs := rfl
                      omega) hpel.2]

theorem anySat_mono (p q : HNode → Bool) (hpq : ∀ n, q n = true → p n = true) :
    ∀ (k : Nat) (ns : List HNode), lsize ns < k → anySat p ns = false →
      anySat q ns = false := by
  intro k
  induction k with
  | zero => intro ns h; omega
  | succ k ih =>
    intro ns h hp
    cases ns with
    | nil => rfl
    | cons n tail =>
      have hsz : nsize n + lsize tail < k + 1 := h
      have hp2 : containsSat p n = false ∧ anySat p tail = false :=
        Bool.or_eq_false_iff.mp hp
      have htail : anySat q tail = false :=
        ih tail (by have := nsize_pos n; omega) hp2.2
      cases n with
      | textN s =>
        show (q (.textN s) || anySat q tail) = false
        rw [htail]
        have : p (.textN s) = false := hp2.1
        cases hqs : q (.textN s) with
        | false => rfl
        | true => rw [hpq _ hqs] at this; exact absurd this (by simp)
      | elemN t a cs =>
        have hpel := Bool.or_eq_false_iff.mp
          (show (p (.elemN t a cs) || anySat p cs) = false from hp2.1)
        show (containsSat q (.elemN t a cs) || anySat q tail) = false
        rw [show containsSat q (.elemN t a cs)
            = (q (.elemN t a cs) || anySat q cs) from rfl, htail]
        have hqcs : anySat q cs = false :=
          ih cs (by have hs2 : nsize (HNode.elemN t a cs) = 1 + lsize cs := rfl
                    omega) hpel.2
        rw [hqcs]
        cases hqe : q (.elemN t a cs) with
        | false => rfl
        | true => rw [hpq _ hqe] at hpel; exact absurd hpel.1 (by simp)


theorem subList_of_isPre {p l : List Char} (h : isPre p l = true) :
    subList p l = true := by
  cases l with
  | nil => exact h
  | cons x xs => simp [subList, h]

theorem subList_append_left (x : List Char) {p t : List Char}
    (h : subList p t = true) : subList p (x ++ t) = true := by
  induction x with
  | nil => exact h
  | cons a as ih =>
    show (isPre p (a :: (as ++ t)) || subList p (as ++ t)) = true
    rw [ih]
    simp

theorem replace_insert {pat rep : List Char} (hne : pat ≠ []) :
    ∀ l : List Char, subList pat l = true →
      ∃ x y, replaceAllCore pat rep l = x ++ rep ++ y := by
  intro l
  induction l with
  | nil =>
    intro h
    cases pat with
    | nil => exact absurd rfl hne
    | cons a as => simp [subList, isPre] at h
  | cons x xs ih =>
    intro h
    by_cases hp : isPre pat (x :: xs) = true
    · refine ⟨[], replaceAllCore pat rep (xs.drop (pat.length - 1)), ?_⟩
      rw [replaceAllCore, if_pos ⟨hne, hp⟩]
      rfl
    · have hsub : subList pat xs = true := by
        have h2 : (isPre pat (x :: xs) || subList pat xs) = true := h
        rcases Bool.or_eq_true_iff.mp h2 with h3 | h3
        · exact absurd h3 hp
        · exact h3
      obtain ⟨x1, y1, hxy⟩ := ih hsub
      refine ⟨x :: x1, y1, ?_⟩
      rw [replaceAllCore, if_neg (by intro hc; exact hp hc.2), hxy]
      rfl

/-- The class-based badge predicate named by the claim: an element carrying
class `framer-badge`. -/
def isFramerBadgeClass : HNode → Bool
  | .textN _ => false
  | .elemN t attrs _ => t = "div" && hasClass attrs "framer-badge"

/-- A `span` carrying class `framer-badge`: the DOM phase does not remove it
(only `div` elements are matched by the selector loop). -/
def spanBadge : HNode :=
  .elemN "span" [("class", "framer-badge")] [.textN "Made in Framer"]

/-- C9 as stated is false: `remove_platform_badge` removes only `div`
elements with class `framer-badge`; a `span` with that class survives the
DOM phase untouched (it is only hidden by the injected CSS). -/
theorem C9_counterexample :
    framer_remove_badge_dom [spanBadge] = [spanBadge]
    ∧ hasClass [("class", "framer-badge")] "framer-badge" = true :=
  ⟨rfl, by decide⟩

/-- C9 (amended): the Framer stripper removes every `div` element with class
`framer-badge` (elements of other tags with that class stay in the DOM and
are only hidden by the injected CSS); it injects the badge-hiding `<style>`
block — which contains a `display:none` rule for
`#__framer-badge-container` — before `</head>`, else right after `<body>`,
else prepended to the raw document; and any tree in which no removal
predicate matches (in particular unrelated body text of 50 or more
characters mentioning "framer") passes through the DOM phase unchanged. -/
theorem C9_framer_badge :
    (∀ ns : List HNode,
        anySat isFramerBadgeClass (framer_remove_badge_dom ns) = false)
    ∧ subList "#__framer-badge-container \x7b display: none !important; \x7d".data
        framer_css.data = true
    ∧ (∀ html : String, subList framer_css.data (framer_inject_css html).data = true)
    ∧ (∀ html : String, subList "</head>".data html.data = true →
        ∃ x y, (framer_inject_css html).data
          = x ++ (framer_css.data ++ "</head>".data) ++ y)
    ∧ (∀ html : String, subList "</head>".data html.data = false →
        subList "<body>".data html.data = true →
        ∃ x y, (framer_inject_css html).data
          = x ++ ("<body>".data ++ framer_css.data) ++ y)
    ∧ (∀ html : String, subList "</head>".data html.data = false →
        subList "<body>".data html.data = false →
        framer_inject_css html = framer_css ++ html)
    ∧ (∀ ns : List HNode,
        anySat (fun n => framerPass1 n || framerPass2 n || framerPass3 n) ns
          = false →
        framer_remove_badge_dom ns = ns) := by
  have hind1 : ∀ t a cs cs2, framerPass1 (.elemN t a cs)
      = framerPass1 (.elemN t a cs2) := fun _ _ _ _ => rfl
  have htext1 : ∀ s, framerPass1 (.textN s) = false := fun _ => rfl
  refine ⟨?_, by decide, ?_, ?_, ?_, ?_, ?_⟩
  · intro ns
    have h1 : anySat framerPass1 (stripNodes framerPass1 ns) = false :=
      strip_clean_aux framerPass1 htext1 hind1 (lsize ns + 1) ns (Nat.lt_succ_self _)
    have h2 : anySat framerPass1
        (stripNodes framerPass2 (stripNodes framerPass1 ns)) = false :=
      strip_preserve_aux framerPass2 framerPass1 hind1 _ _
        (Nat.lt_succ_self _) h1
    have h3 : anySat framerPass1 (framer_remove_badge_dom ns) = false :=
      strip_preserve_aux framerPass3 framerPass1 hind1 _ _
        (Nat.lt_succ_self _) h2
    apply anySat_mono framerPass1 isFramerBadgeClass ?_ _ _
      (Nat.lt_succ_self (lsize (framer_remove_badge_dom ns))) h3
    intro n hq
    cases n with
    | textN s => exact absurd hq (by simp [isFramerBadgeClass])
    | elemN t a cs =>
      have hq2 := Bool.and_eq_true_iff.mp hq
      show (decide (t = "div")
          && (decide (getAttr a "id" = some "__framer-badge-container")
            || false || hasClass a "framer-badge" || hasClass a "edit-template"
            || hasClass a "template-badge")) = true
      rw [Bool.and_eq_true]
      refine ⟨hq2.1, ?_⟩
      rw [hq2.2]
      simp
  · intro html
    unfold framer_inject_css
    by_cases h1 : subList "</head>".data html.data = true
    · rw [if_pos h1]
      obtain ⟨x, y, hxy⟩ := replace_insert (by decide) html.data h1
      rw [show ((⟨replaceAllCore "</head>".data
          (framer_css.data ++ "</head>".data) html.data⟩ : String)).data
          = replaceAllCore "</head>".data
            (framer_css.data ++ "</head>".data) html.data from rfl, hxy]
      rw [List.append_assoc, List.append_assoc]
      exact subList_append_left x
        (subList_of_isPre (isPre_self_append _ _))
    · rw [if_neg h1]
      by_cases h2 : subList "<body>".data html.data = true
      · rw [if_pos h2]
        obtain ⟨x, y, hxy⟩ := replace_insert (by decide) html.data h2
        rw [show ((⟨replaceAllCore "<body>".data
            ("<body>".data ++ framer_css.data) html.data⟩ : String)).data
            = replaceAllCore "<body>".data
              ("<body>".data ++ framer_css.data) html.data from rfl, hxy]
        rw [List.append_assoc, List.append_assoc, ← List.append_assoc]
        apply subList_append_left
        apply subList_of_isPre (isPre_self_append _ _)
      · rw [if_neg h2]
        show subList framer_css.data (framer_css.data ++ html.data) = true
        exact subList_of_isPre (isPre_self_append _ _)
  · intro html h1
    unfold framer_inject_css
    rw [if_pos h1]
    exact replace_insert (by decide) html.data h1
  · intro html h1 h2
    unfold framer_inject_css
    rw [if_neg (by rw [h1]; simp), if_pos h2]
    exact replace_insert (by decide) html.data h2
  · intro html h1 h2
    unfold framer_inject_css
    rw [if_neg (by rw [h1]; simp), if_neg (by rw [h2]; simp)]
  · intro ns hfree
    have hmono : ∀ (q : HNode → Bool),
        (∀ n, q n = true →
          (framerPass1 n || framerPass2 n || framerPass3 n) = true) →
        anySat q ns = false := fun q hq =>
      anySat_mono _ q hq (lsize ns + 1) ns (Nat.lt_succ_self _) hfree
    have hf1 : anySat framerPass1 ns = false :=
      hmono framerPass1 (fun n h => by rw [h]; simp)
    have hf2 : anySat framerPass2 ns = false :=
      hmono framerPass2 (fun n h => by rw [h]; simp)
    have hf3 : anySat framerPass3 ns = false :=
      hmono framerPass3 (fun n h => by rw [h]; simp)
    unfold framer_remove_badge_dom
    rw [strip_id_aux framerPass1 (lsize ns + 1) ns (Nat.lt_succ_self _) hf1,
        strip_id_aux framerPass2 (lsize ns + 1) ns (Nat.lt_succ_self _) hf2,
        strip_id_aux framerPass3 (lsize ns + 1) ns (Nat.lt_succ_self _) hf3]

/-- Unrelated long body text mentioning "framer": 70 visible characters, so
the under-50-characters text heuristic must not remove it. -/
def framerLongText : HNode :=
  .elemN "div" []
    [.textN "Our team wrote about why we love framer at great length in this post."]

theorem C9_framer_badge_witness :
    framer_remove_badge_dom [framerLongText] = [framerLongText]
    ∧ (50 ≤ (getTextRaw framerLongText).length
        ∧ subList "framer".data (getTextRaw framerLongText) = true)
    ∧ subList "</head>".data "<html><head></head><body>x</body></html>".data = true
    ∧ (∃ x y, (framer_inject_css "<html><head></head><body>x</body></html>").data
        = x ++ (framer_css.data ++ "</head>".data) ++ y) :=
  ⟨C9_framer_badge.2.2.2.2.2.2 [framerLongText] (by decide),
   ⟨by decide, by decide⟩,
   by decide,
   C9_framer_badge.2.2.2.1 "<html><head></head><body>x</body></html>" (by decide)⟩

/- ### C10: `BaseSiteSpider.process_html_content` (base_spider.py 335-372)

The body is one big `try`. Inside it, the parameter `html` is REBOUND:

    html = re.sub(rf'https?://{re.escape(domain)}/', './', html)
    html = re.sub(rf'https?://{re.escape(domain)}', '.', html)

and only then the BeautifulSoup phase runs; `except` returns `html`, i.e.
whatever the name `html` holds at the moment the exception is raised. The
two `re.sub` calls and `urlparse` cannot raise on `str` inputs, so an
exception can only come from the soup phase, at which point `html` already
holds the textually pre-rewritten string. We model the regex pre-pass
exactly (the pattern `https?://domain/` matches either scheme at each
position, scanning left to right) and abstract the fallible soup phase as
`domPhase : String -> Option String`, `none` meaning it raised. -/

/-- One left-to-right scan replacing every occurrence of either pattern
`pa` or `pb` by `rep` (models one `re.sub(r'https?://...')` call, where the
alternation is between the two concrete scheme spellings). Fuel-indexed so
that it is structurally recursive; `replace2` below supplies `l.length`
fuel, which is enough since every step consumes at least one character. -/
def replace2Fuel (pa pb rep : List Char) : Nat → List Char → List Char
  | 0, l => l
  | _ + 1, [] => []
  | k + 1, x :: xs =>
    if pa ≠ [] ∧ isPre pa (x :: xs) = true then
      rep ++ replace2Fuel pa pb rep k (xs.drop (pa.length - 1))
    else if pb ≠ [] ∧ isPre pb (x :: xs) = true then
      rep ++ replace2Fuel pa pb rep k (xs.drop (pb.length - 1))
    else x :: replace2Fuel pa pb rep k xs

/-- Replace every occurrence of `pa` or `pb` by `rep` in `l`. -/
def replace2 (pa pb rep l : List Char) : List Char :=
  replace2Fuel pa pb rep l.length l

/-- The textual URL pre-pass of `process_html_content`: first
`re.sub(rf'https?://{domain}/', './', html)`, then
`re.sub(rf'https?://{domain}', '.', html)` on the result. -/
def textual_pre_pass (domain html : List Char) : List Char :=
  replace2 ("https://".data ++ domain) ("http://".data ++ domain) ".".data
    (replace2 ("https://".data ++ domain ++ "/".data)
      ("http://".data ++ domain ++ "/".data) "./".data html)

/-- Model of `BaseSiteSpider.process_html_content(self, html, base_url)`
(base_spider.py 335-372): the textual pre-pass rebinds `html`, then the
abstracted soup phase runs; `some out` models `return str(soup)`, `none`
models an exception reaching `except`, whose `return html` returns the
REBOUND value. -/
def process_html_content (domPhase : String → Option String)
    (html base_url : String) : String :=
  match domPhase ⟨textual_pre_pass (urlNetlocCore base_url.data) html.data⟩ with
  | some out => out
  | none => ⟨textual_pre_pass (urlNetlocCore base_url.data) html.data⟩

theorem isPre_of_isPre_append {q : List Char} :
    ∀ {p l : List Char}, isPre (p ++ q) l = true → isPre p l = true := by
  intro p
  induction p with
  | nil => intro l _; rfl
  | cons a as ih =>
    intro l h
    cases l with
    | nil => exact absurd h (by simp [isPre])
    | cons b bs =>
      have h2 : (a == b && isPre (as ++ q) bs) = true := h
      rcases Bool.and_eq_true_iff.mp h2 with ⟨hab, htl⟩
      show (a == b && isPre as bs) = true
      rw [hab, ih htl]
      rfl

theorem subList_of_subList_append {p q : List Char} :
    ∀ {l : List Char}, subList (p ++ q) l = true → subList p l = true := by
  intro l
  induction l with
  | nil => exact fun h => isPre_of_isPre_append h
  | cons x xs ih =>
    intro h
    have h2 : (isPre (p ++ q) (x :: xs) || subList (p ++ q) xs) = true := h
    show (isPre p (x :: xs) || subList p xs) = true
    rcases Bool.or_eq_true_iff.mp h2 with h3 | h3
    · rw [isPre_of_isPre_append h3]
      rfl
    · rw [ih h3]
      simp

theorem subList_append_false {p q l : List Char}
    (h : subList p l = false) : subList (p ++ q) l = false := by
  cases hc : subList (p ++ q) l
  · rfl
  · exact absurd (subList_of_subList_append hc) (by simp [h])

theorem replace2Fuel_id (pa pb rep : List Char) :
    ∀ k l, subList pa l = false → subList pb l = false →
      replace2Fuel pa pb rep k l = l := by
  intro k
  induction k with
  | zero => intro l _ _; rfl
  | succ k ih =>
    intro l ha hb
    cases l with
    | nil => rfl
    | cons x xs =>
      have ha2 : (isPre pa (x :: xs) || subList pa xs) = false := ha
      have hb2 : (isPre pb (x :: xs) || subList pb xs) = false := hb
      rcases Bool.or_eq_false_iff.mp ha2 with ⟨hpa, hta⟩
      rcases Bool.or_eq_false_iff.mp hb2 with ⟨hpb, htb⟩
      show (if pa ≠ [] ∧ isPre pa (x :: xs) = true then
          rep ++ replace2Fuel pa pb rep k (xs.drop (pa.length - 1))
        else if pb ≠ [] ∧ isPre pb (x :: xs) = true then
          rep ++ replace2Fuel pa pb rep k (xs.drop (pb.length - 1))
        else x :: replace2Fuel pa pb rep k xs) = x :: xs
      rw [if_neg (fun hc => absurd hc.2 (by rw [hpa]; exact Bool.false_ne_true)),
          if_neg (fun hc => absurd hc.2 (by rw [hpb]; exact Bool.false_ne_true)),
          ih xs hta htb]

theorem replace2_id {pa pb rep l : List Char}
    (ha : subList pa l = false) (hb : subList pb l = false) :
    replace2 pa pb rep l = l :=
  replace2Fuel_id pa pb rep l.length l ha hb

theorem textual_pre_pass_id {d html : List Char}
    (hs : subList ("https://".data ++ d) html = false)
    (hb : subList ("http://".data ++ d) html = false) :
    textual_pre_pass d html = html := by
  unfold textual_pre_pass
  rw [replace2_id (subList_append_false hs) (subList_append_false hb)]
  exact replace2_id hs hb

/-- C10 as stated is false: when the soup phase raises, `except` returns
the REBOUND `html` — the string already rewritten by the two `re.sub`
calls — not the original input. Here the pre-pass rewrites the absolute
same-domain link to `./about`, the soup phase raises, and the function
returns the partially rewritten string, different from its input. -/
theorem C10_counterexample :
    process_html_content (fun _ => none)
      "<a href=\"https://example.com/about\">About</a>" "https://example.com/page"
      = "<a href=\"./about\">About</a>"
    ∧ "<a href=\"./about\">About</a>"
      ≠ "<a href=\"https://example.com/about\">About</a>" :=
  ⟨rfl, by decide⟩

/-- C10 (amended): `process_html_content` is total — every exception from
the DOM link-rewriting pass is caught — but on such a failure it returns
the value the name `html` holds at that point: the input after the textual
URL pre-pass (the two `re.sub` rebindings), which is the original input
string only when neither `http://domain` nor `https://domain` occurs in it;
when the DOM pass succeeds its output is returned. -/
theorem C10_exception_return :
    (∀ (domPhase : String → Option String) (html base_url out : String),
        domPhase ⟨textual_pre_pass (urlNetlocCore base_url.data) html.data⟩
          = some out →
        process_html_content domPhase html base_url = out)
    ∧ (∀ (domPhase : String → Option String) (html base_url : String),
        domPhase ⟨textual_pre_pass (urlNetlocCore base_url.data) html.data⟩
          = none →
        process_html_content domPhase html base_url
          = ⟨textual_pre_pass (urlNetlocCore base_url.data) html.data⟩)
    ∧ (∀ (domPhase : String → Option String) (html base_url : String),
        domPhase ⟨textual_pre_pass (urlNetlocCore base_url.data) html.data⟩
          = none →
        subList ("https://".data ++ urlNetlocCore base_url.data) html.data
          = false →
        subList ("http://".data ++ urlNetlocCore base_url.data) html.data
          = false →
        process_html_content domPhase html base_url = html) := by
  refine ⟨?_, ?_, ?_⟩
  · intro domPhase html base_url out h
    unfold process_html_content
    rw [h]
  · intro domPhase html base_url h
    unfold process_html_content
    rw [h]
  · intro domPhase html base_url h hs hb
    unfold process_html_content
    rw [h]
    show (⟨textual_pre_pass (urlNetlocCore base_url.data) html.data⟩ : String)
        = html
    rw [textual_pre_pass_id hs hb]

theorem C10_exception_return_witness :
    process_html_content (fun _ => some "ok") "<p>hello</p>"
      "https://example.com/page" = "ok"
    ∧ process_html_content (fun _ => none) "<p>hello</p>"
        "https://example.com/page" = "<p>hello</p>" :=
  ⟨C10_exception_return.1 (fun _ => some "ok") "<p>hello</p>"
      "https://example.com/page" "ok" rfl,
   C10_exception_return.2.2 (fun _ => none) "<p>hello</p>"
      "https://example.com/page" rfl (by decide) (by decide)⟩
